import Mathlib

/-!
Verification of the EmojiCut sticker segmentation and extraction pipeline.

The definitions below are a shallow embedding of the image-processing code
of the repository (the segmentation module and the naming service):

* `Rect`, `xDist`, `yDist`, `mergeClose`, `unionRect`, `absorb`, `mergePass`,
  `mergeLoop`, `mergeRects` embed the rectangle merger `mergeRects`.
  The JavaScript fixed-point loop (`while (changed) ...`) is embedded with
  an explicit iteration bound: every pass that merges strictly shrinks the
  list, so `rects.length` passes always suffice; the theorem
  `mergePass_mergeRects` below certifies that the returned list is a true
  fixed point of a pass, i.e. that the embedding computes exactly the result
  of the source's unbounded loop.

Pixel coordinates and thresholds are integers (`ℤ`), matching the integer
pixel arithmetic of the source.
-/

namespace EmojiCut

/-- An RGBA pixel sample, each channel `0–255`. -/
structure RGBA where
  r : ℕ
  g : ℕ
  b : ℕ
  a : ℕ
deriving DecidableEq, Repr

/-- Embeds `isBackground`: transparent (`a < 20`) or near-white
(`r > 240 && g > 240 && b > 240`). -/
def isBackground (p : RGBA) : Bool :=
  if p.a < 20 then true
  else decide (240 < p.r) && decide (240 < p.g) && decide (240 < p.b)

/-- Embeds the `Rect` interface: `{minX, maxX, minY, maxY}`, inclusive
source-pixel bounds. -/
structure Rect where
  minX : ℤ
  maxX : ℤ
  minY : ℤ
  maxY : ℤ
deriving DecidableEq, Repr

/-- The axis-aligned X gap of the merger:
`Math.max(0, current.minX - other.maxX, other.minX - current.maxX)`. -/
def xDist (a b : Rect) : ℤ :=
  max 0 (max (a.minX - b.maxX) (b.minX - a.maxX))

/-- The axis-aligned Y gap of the merger:
`Math.max(0, current.minY - other.maxY, other.minY - current.maxY)`. -/
def yDist (a b : Rect) : ℤ :=
  max 0 (max (a.minY - b.maxY) (b.minY - a.maxY))

/-- The merger's proximity test:
`xDist < distanceThreshold && yDist < distanceThreshold`. -/
def mergeClose (t : ℤ) (a b : Rect) : Prop :=
  xDist a b < t ∧ yDist a b < t

instance (t : ℤ) (a b : Rect) : Decidable (mergeClose t a b) := by
  unfold mergeClose; exact inferInstance

/-- The bounding-box union performed on a merge:
min of mins, max of maxes in both axes. -/
def unionRect (a b : Rect) : Rect :=
  ⟨min a.minX b.minX, max a.maxX b.maxX, min a.minY b.minY, max a.maxY b.maxY⟩

/-- The inner `j`-loop of one merger pass: `current` (`r`) is compared in
order against every later not-yet-absorbed rectangle; on a match the match
is absorbed into `current` (which keeps growing), otherwise the rectangle
is kept for later outer iterations. Returns the final `current` and the
surviving rectangles in order. -/
def absorb (t : ℤ) : Rect → List Rect → Rect × List Rect
  | r, [] => (r, [])
  | r, x :: xs =>
    if mergeClose t r x then absorb t (unionRect r x) xs
    else
      let p := absorb t r xs
      (p.1, x :: p.2)

/-- One full pass of the merger (`while` body): each surviving rectangle is
taken up in order and absorbs all later rectangles that are close to its
running union. -/
def mergePassAux (t : ℤ) : ℕ → List Rect → List Rect
  | 0, l => l
  | _ + 1, [] => []
  | fuel + 1, r :: rs =>
    let p := absorb t r rs
    p.1 :: mergePassAux t fuel p.2

/-- One pass of the merger; `l.length` recursion steps always suffice
because `absorb` never lengthens the tail. -/
def mergePass (t : ℤ) (l : List Rect) : List Rect :=
  mergePassAux t l.length l

/-- The merger's outer fixed-point loop: run passes until a pass changes
nothing. A pass that merges strictly shrinks the list, so `l.length`
iterations always suffice; `mergePass_mergeLoop` certifies the fixed point. -/
def mergeLoop (t : ℤ) : ℕ → List Rect → List Rect
  | 0, l => l
  | fuel + 1, l =>
    let p := mergePass t l
    if p.length = l.length then p else mergeLoop t fuel p

/-- Embeds `mergeRects(rects, distanceThreshold)` of the segmentation module. -/
def mergeRects (rects : List Rect) (distanceThreshold : ℤ) : List Rect :=
  mergeLoop distanceThreshold rects.length rects

/-- One rectangle is contained in another (componentwise bound ordering). -/
def rectLE (r s : Rect) : Prop :=
  s.minX ≤ r.minX ∧ r.maxX ≤ s.maxX ∧ s.minY ≤ r.minY ∧ r.maxY ≤ s.maxY

instance (r s : Rect) : Decidable (rectLE r s) := by
  unfold rectLE; exact inferInstance

/-- The rectangle well-formedness invariant of the data model. -/
def validRect (r : Rect) : Prop :=
  r.minX ≤ r.maxX ∧ r.minY ≤ r.maxY

instance (r : Rect) : Decidable (validRect r) := by
  unfold validRect; exact inferInstance

/-! ## Pixel buffers and the component detector

`Img` embeds a decoded pixel buffer: a `width × height` grid of RGBA samples
addressed by `(x, y)` with origin top-left, exactly the data the scan loop of
`processStickerSheet` reads through `getIdx`.  The flat `Uint8Array` index
`y * width + x` of the source is represented by the cell `(x, y)` itself; for
in-bounds cells the two are in bijection and the source only ever indexes
in-bounds cells.  The `while (stack.length > 0)` flood fill is embedded with
an explicit iteration bound `width * height`: every iteration pops one cell
and each pushed cell is freshly marked visited, so the bound always suffices
(certified by the stack-emptiness conclusion of `fillLoop_master` below). -/

/-- A pixel coordinate `(x, y)`. -/
abbrev Cell := ℕ × ℕ

/-- A decoded pixel buffer of known dimensions. -/
structure Img where
  width : ℕ
  height : ℕ
  pix : ℕ → ℕ → RGBA

/-- The set of in-bounds cells of a buffer. -/
def gridF (img : Img) : Finset Cell :=
  Finset.range img.width ×ˢ Finset.range img.height

/-- The background classification of the cell `c` of the buffer. -/
def bgAt (img : Img) (c : Cell) : Bool :=
  isBackground (img.pix c.1 c.2)

/-- An in-bounds, non-background cell. -/
def nonbg (img : Img) (c : Cell) : Prop :=
  c ∈ gridF img ∧ bgAt img c = false

instance (img : Img) (c : Cell) : Decidable (nonbg img c) := by
  unfold nonbg; exact inferInstance

/-- 4-neighborhood adjacency of cells. -/
def adjacent (c d : Cell) : Prop :=
  (d.1 = c.1 + 1 ∧ d.2 = c.2) ∨ (c.1 = d.1 + 1 ∧ d.2 = c.2) ∨
    (d.2 = c.2 + 1 ∧ d.1 = c.1) ∨ (c.2 = d.2 + 1 ∧ d.1 = c.1)

instance (c d : Cell) : Decidable (adjacent c d) := by
  unfold adjacent; exact inferInstance

/-- One move between two adjacent in-bounds non-background cells. -/
def step (img : Img) (c d : Cell) : Prop :=
  nonbg img c ∧ nonbg img d ∧ adjacent c d

/-- 4-connected reachability through non-background pixels. -/
def reach (img : Img) : Cell → Cell → Prop :=
  Relation.ReflTransGen (step img)

/-- `C` is a connected component of non-background pixels: nonempty, all
cells non-background, mutually 4-connected through non-background pixels,
and maximal. -/
def IsComponent (img : Img) (C : Finset Cell) : Prop :=
  C.Nonempty ∧ (∀ c ∈ C, nonbg img c) ∧
    (∀ c ∈ C, ∀ d ∈ C, reach img c d) ∧
    (∀ c ∈ C, ∀ d, step img c d → d ∈ C)

/-- Least x-coordinate of a nonempty cell set. -/
def compMinX (C : Finset Cell) (h : C.Nonempty) : ℕ :=
  (C.image Prod.fst).min' (h.image _)

/-- Greatest x-coordinate of a nonempty cell set. -/
def compMaxX (C : Finset Cell) (h : C.Nonempty) : ℕ :=
  (C.image Prod.fst).max' (h.image _)

/-- Least y-coordinate of a nonempty cell set. -/
def compMinY (C : Finset Cell) (h : C.Nonempty) : ℕ :=
  (C.image Prod.snd).min' (h.image _)

/-- Greatest y-coordinate of a nonempty cell set. -/
def compMaxY (C : Finset Cell) (h : C.Nonempty) : ℕ :=
  (C.image Prod.snd).max' (h.image _)

/-- The bounding rectangle of a nonempty cell set (inclusive bounds). -/
def componentRect (C : Finset Cell) (h : C.Nonempty) : Rect :=
  ⟨(compMinX C h : ℤ), (compMaxX C h : ℤ), (compMinY C h : ℤ), (compMaxY C h : ℤ)⟩

/-- The detector's size thresholds as the code computes them:
`count > 50 && (maxX - minX) > 5 && (maxY - minY) > 5`. -/
def passCode (C : Finset Cell) (h : C.Nonempty) : Prop :=
  50 < C.card ∧ 5 < compMaxX C h - compMinX C h ∧ 5 < compMaxY C h - compMinY C h

/-- The mutable state of one detector flood fill: the shared `visited` mask,
the explicit stack, the running bounds and the pixel count. -/
structure FillSt where
  visited : Finset Cell
  stack : List Cell
  minX : ℕ
  maxX : ℕ
  minY : ℕ
  maxY : ℕ
  count : ℕ

/-- The neighbor push of the detector: bounds check, visited check,
background check; on success mark visited and push. -/
def dPush (img : Img) (st : FillSt) (n : Cell) : FillSt :=
  if n.1 < img.width ∧ n.2 < img.height ∧ n ∉ st.visited ∧ bgAt img n = false then
    { st with visited := insert n st.visited, stack := n :: st.stack }
  else st

/-- The neighbor candidates `[cx+1, cy], [cx-1, cy], [cx, cy+1], [cx, cy-1]`
in source order; the `nx ≥ 0` / `ny ≥ 0` checks of the source become guards
on the subtractions. -/
def dNbrs (c : Cell) : List Cell :=
  [(c.1 + 1, c.2)] ++ (if 0 < c.1 then [(c.1 - 1, c.2)] else []) ++
    [(c.1, c.2 + 1)] ++ (if 0 < c.2 then [(c.1, c.2 - 1)] else [])

/-- The detector's stack-based flood fill: pop a cell, extend the running
bounds and count, then try to push its four neighbors.  The head of the
list is the top of the stack, matching `Array.prototype.pop`. -/
def fillLoop (img : Img) : ℕ → FillSt → FillSt
  | 0, st => st
  | fuel + 1, st =>
    match st.stack with
    | [] => st
    | c :: rest =>
      let st1 : FillSt :=
        { st with
          stack := rest,
          minX := min st.minX c.1, maxX := max st.maxX c.1,
          minY := min st.minY c.2, maxY := max st.maxY c.2,
          count := st.count + 1 }
      fillLoop img fuel ((dNbrs c).foldl (dPush img) st1)

/-- One detector flood fill from the seed `c` with the pre-fill visited
set `V₀`: the seed is marked visited and pushed, the stats start at the
seed, and the loop runs to stack exhaustion (the `width * height` bound
always suffices, see `fillLoop_master`). -/
def detFill (img : Img) (V₀ : Finset Cell) (c : Cell) : FillSt :=
  fillLoop img (img.width * img.height)
    ⟨insert c V₀, [c], c.1, c.1, c.2, c.2, 0⟩

/-- One step of the scan loop of `processStickerSheet` at the cell `c`:
skip visited or background pixels, otherwise flood fill from `c` and emit
the bounding rectangle when the size thresholds pass. -/
def scanCell (img : Img) (acc : Finset Cell × List Rect) (c : Cell) :
    Finset Cell × List Rect :=
  if c ∈ acc.1 then acc
  else if bgAt img c then acc
  else
    let st := detFill img acc.1 c
    if 50 < st.count ∧ 5 < st.maxX - st.minX ∧ 5 < st.maxY - st.minY then
      (st.visited, acc.2 ++ [⟨(st.minX : ℤ), (st.maxX : ℤ), (st.minY : ℤ), (st.maxY : ℤ)⟩])
    else (st.visited, acc.2)

/-- The row-major enumeration of all cells (`y` outer, `x` inner). -/
def rowMajor (img : Img) : List Cell :=
  (List.range img.height).flatMap fun y => (List.range img.width).map fun x => (x, y)

/-- Embeds the component-detection scan of `processStickerSheet`: the raw
rectangle list produced before merging. -/
def detectComponents (img : Img) : List Rect :=
  ((rowMajor img).foldl (scanCell img) (∅, [])).2

/-- An all-black, fully opaque test buffer. -/
def blackImg (w h : ℕ) : Img :=
  ⟨w, h, fun _ _ => ⟨0, 0, 0, 255⟩⟩

/-- The processed (already popped) cells of a fill, relative to the visited
set `V₀` that predates the fill. -/
def procSet (V₀ : Finset Cell) (st : FillSt) : Finset Cell :=
  (st.visited \ V₀) \ st.stack.toFinset

/-- The termination measure of the detector's flood fill: unvisited cells
plus stack entries.  Every iteration pops one entry and every push freshly
marks a cell visited, so the measure drops by exactly one per iteration. -/
def fillMeasure (img : Img) (st : FillSt) : ℕ :=
  ((gridF img).card - st.visited.card) + st.stack.length

/-- Facts relating a fill state to the state after zero or more neighbor
pushes of the cell `c0`. -/
structure PushFacts (img : Img) (V₀ : Finset Cell) (c0 : Cell)
    (st st' : FillSt) : Prop where
  mono : st.visited ⊆ st'.visited
  vnew : ∀ v ∈ st'.visited, v ∈ st.visited ∨
    (v ∉ st.visited ∧ nonbg img v ∧ step img c0 v)
  grid : st'.visited ⊆ gridF img
  stackOld : ∀ x ∈ st.stack, x ∈ st'.stack
  stackNew : ∀ x ∈ st'.stack, x ∈ st.stack ∨ (x ∈ st'.visited ∧ x ∉ st.visited)
  stackVis : ∀ x ∈ st'.stack, x ∈ st'.visited
  newInStack : ∀ v ∈ st'.visited, v ∉ st.visited → v ∈ st'.stack
  nodup : st'.stack.Nodup
  counts : st'.visited.card + st.stack.length = st.visited.card + st'.stack.length
  proc : procSet V₀ st' = procSet V₀ st
  statMinX : st'.minX = st.minX
  statMaxX : st'.maxX = st.maxX
  statMinY : st'.minY = st.minY
  statMaxY : st'.maxY = st.maxY
  statCount : st'.count = st.count

/-- The loop invariant of the detector's flood fill, relative to the
pre-fill visited set `V₀` and the seed `s₀`: newly visited cells are
non-background and reachable from the seed, stack cells are freshly
visited, processed cells have all eligible neighbors visited, and the
running stats are exactly the stats of the processed cells plus the seed. -/
structure DInv (img : Img) (V₀ : Finset Cell) (s₀ : Cell) (st : FillSt) :
    Prop where
  grid : st.visited ⊆ gridF img
  v0 : V₀ ⊆ st.visited
  nodup : st.stack.Nodup
  stackVis : ∀ c ∈ st.stack, c ∈ st.visited
  stackNotV0 : ∀ c ∈ st.stack, c ∉ V₀
  reachNew : ∀ c ∈ st.visited, c ∉ V₀ → reach img s₀ c
  nonbgNew : ∀ c ∈ st.visited, c ∉ V₀ → nonbg img c
  closed : ∀ c ∈ procSet V₀ st, ∀ d, adjacent c d → d.1 < img.width →
    d.2 < img.height → bgAt img d = false → d ∈ st.visited
  sMinX : st.minX = compMinX (insert s₀ (procSet V₀ st)) (Finset.insert_nonempty _ _)
  sMaxX : st.maxX = compMaxX (insert s₀ (procSet V₀ st)) (Finset.insert_nonempty _ _)
  sMinY : st.minY = compMinY (insert s₀ (procSet V₀ st)) (Finset.insert_nonempty _ _)
  sMaxY : st.maxY = compMaxY (insert s₀ (procSet V₀ st)) (Finset.insert_nonempty _ _)
  sCount : st.count = (procSet V₀ st).card

/-- The loop invariant of the detector's scan: the visited set is a union
of already-explored components, each covered cell lies in a component
whose rectangle has been emitted when its thresholds pass, and every
emitted rectangle is the bounding box of a passing component. -/
structure ScanInv (img : Img) (acc : Finset Cell × List Rect) : Prop where
  grid : acc.1 ⊆ gridF img
  nonbgV : ∀ c ∈ acc.1, nonbg img c
  closed : ∀ c ∈ acc.1, ∀ d, step img c d → d ∈ acc.1
  covered : ∀ c ∈ acc.1, ∃ C, ∃ hC : IsComponent img C, c ∈ C ∧ C ⊆ acc.1 ∧
    (passCode C hC.1 → componentRect C hC.1 ∈ acc.2)
  sound : ∀ r ∈ acc.2, ∃ C, ∃ hC : IsComponent img C,
    passCode C hC.1 ∧ r = componentRect C hC.1

/-! ## Exterior background removal of the Sticker Extractor

The background-removal step of `extractStickerFromRect` runs a flood fill
seeded from every border pixel of the cropped buffer, marking `isExterior`
exactly the background-classified pixels reachable from the border through
background pixels, and then forces alpha to zero on the marked pixels only.
The `while (stack.length > 0)` loop is embedded with an explicit iteration
bound (each iteration pops one entry and pushes at most four, and pushes
happen only when a pixel is freshly marked, so
`5·width·height + 2·width + 2·height` always suffices, certified by
`extLoop_master`). -/

/-- A cell on the border of the buffer. -/
def borderCell (img : Img) (c : Cell) : Prop :=
  c.1 = 0 ∨ c.1 = img.width - 1 ∨ c.2 = 0 ∨ c.2 = img.height - 1

instance (img : Img) (c : Cell) : Decidable (borderCell img c) := by
  unfold borderCell; exact inferInstance

/-- One move between two adjacent in-bounds background-classified cells. -/
def bgStep (img : Img) (c d : Cell) : Prop :=
  c ∈ gridF img ∧ d ∈ gridF img ∧ bgAt img c = true ∧ bgAt img d = true ∧
    adjacent c d

/-- A cell is exterior-reachable: background-classified and connected to
some background border pixel through a 4-connected path of
background-classified pixels. -/
def extReach (img : Img) (c : Cell) : Prop :=
  ∃ b : Cell, b ∈ gridF img ∧ borderCell img b ∧ bgAt img b = true ∧
    Relation.ReflTransGen (bgStep img) b c

/-- The neighbor pushes of the exterior fill, in source order
`[cx-1, cy], [cx+1, cy], [cx, cy-1], [cx, cy+1]`, each guarded by the
source's bounds checks. -/
def eNbrs (img : Img) (c : Cell) : List Cell :=
  (if 0 < c.1 then [(c.1 - 1, c.2)] else []) ++
    (if c.1 < img.width - 1 then [(c.1 + 1, c.2)] else []) ++
    (if 0 < c.2 then [(c.1, c.2 - 1)] else []) ++
    (if c.2 < img.height - 1 then [(c.1, c.2 + 1)] else [])

/-- The exterior flood fill loop: pop a cell; if it is unmarked and
background-classified, mark it and push its in-bounds neighbors.  The head
of the list is the top of the stack (`Array.prototype.pop`), so the pushes
of one iteration are appended in reverse. -/
def extLoop (img : Img) : ℕ → Finset Cell → List Cell → Finset Cell
  | 0, M, _ => M
  | _ + 1, M, [] => M
  | fuel + 1, M, c :: rest =>
    if c ∉ M ∧ bgAt img c = true then
      extLoop img fuel (insert c M) ((eNbrs img c).reverse ++ rest)
    else extLoop img fuel M rest

/-- The border seeds in source push order: `[x, 0], [x, height-1]` for
every column, then `[0, y], [width-1, y]` for `1 ≤ y ≤ height-2`. -/
def seedList (img : Img) : List Cell :=
  ((List.range img.width).flatMap fun x => [(x, 0), (x, img.height - 1)]) ++
    ((List.range' 1 (img.height - 1 - 1)).flatMap fun y =>
      [(0, y), (img.width - 1, y)])

/-- The `isExterior` mask computed by the extractor's background removal. -/
def exteriorSet (img : Img) : Finset Cell :=
  extLoop img (5 * img.width * img.height + 2 * img.width + 2 * img.height)
    ∅ (seedList img).reverse

/-- The background-removal step of `extractStickerFromRect`: alpha is
forced to zero exactly on the `isExterior` cells; every other channel of
every pixel is left unchanged. -/
def removeExterior (img : Img) : Img :=
  ⟨img.width, img.height, fun x y =>
    let p := img.pix x y
    if (x, y) ∈ exteriorSet img then ⟨p.r, p.g, p.b, 0⟩ else p⟩

/-- The termination measure of the exterior fill. -/
def extMeasure (img : Img) (M : Finset Cell) (stack : List Cell) : ℕ :=
  5 * ((gridF img).card - M.card) + stack.length

/-- The loop invariant of the exterior fill: marked cells are in-bounds,
background, and exterior-reachable; stack cells are in-bounds border cells
or neighbors of marked cells; background neighbors of marked cells and
background border cells are marked or pending. -/
structure EInv (img : Img) (M : Finset Cell) (stack : List Cell) : Prop where
  mGrid : M ⊆ gridF img
  mBg : ∀ c ∈ M, bgAt img c = true
  mReach : ∀ c ∈ M, extReach img c
  sGrid : ∀ c ∈ stack, c ∈ gridF img
  sSrc : ∀ c ∈ stack, borderCell img c ∨ ∃ m ∈ M, adjacent m c
  mClosed : ∀ m ∈ M, ∀ d, adjacent m d → d ∈ gridF img →
    bgAt img d = true → d ∈ M ∨ d ∈ stack
  bCov : ∀ b ∈ gridF img, borderCell img b → bgAt img b = true →
    b ∈ M ∨ b ∈ stack

/-! ## The Sticker Extractor's crop geometry and control flow

`extractStickerFromRect` computes a padded, clamped crop of the source,
returns `null` when the crop is degenerate or a canvas context cannot be
obtained, removes the exterior background of the crop, and assembles the
result.  The silhouette/stroke synthesis and the PNG encoding
(`toDataURL`) are renderer effects (floating-point trigonometric offsets
drawn with implicit resampling); the embedding carries the
background-removed crop (the content of `segCanvas` after `putImageData`)
and the result geometry, which is everything the claims below consume. -/

/-- `finalX = Math.max(0, rect.minX - padding)` with `padding = 2`. -/
def cropX (rect : Rect) : ℤ := max 0 (rect.minX - 2)

/-- `finalY = Math.max(0, rect.minY - padding)`. -/
def cropY (rect : Rect) : ℤ := max 0 (rect.minY - 2)

/-- `finalW = Math.min(width - finalX, (rect.maxX - rect.minX) + padding * 2)`. -/
def cropW (source : Img) (rect : Rect) : ℤ :=
  min ((source.width : ℤ) - cropX rect) ((rect.maxX - rect.minX) + 2 * 2)

/-- `finalH = Math.min(height - finalY, (rect.maxY - rect.minY) + padding * 2)`. -/
def cropH (source : Img) (rect : Rect) : ℤ :=
  min ((source.height : ℤ) - cropY rect) ((rect.maxY - rect.minY) + 2 * 2)

/-- Availability of the three drawing surfaces the extractor acquires
(`segCanvas`, silhouette and final canvas contexts). -/
structure CanvasEnv where
  segCtxOk : Bool
  silCtxOk : Bool
  finalCtxOk : Bool

/-- The sticker result assembled by the extractor: source offsets, final
canvas dimensions (crop plus `2 × strokeWidth`), name, and the
background-removed crop. -/
structure StickerSegment where
  originalX : ℤ
  originalY : ℤ
  width : ℤ
  height : ℤ
  name : String
  cut : Img

/-- Embeds `extractStickerFromRect(source, rect, defaultName)`: padding and
clamping of the crop, the degenerate-crop `null` return, the context
acquisition failures, the exterior background removal on the cropped
buffer, and the result assembly with `strokeWidth = 6`. -/
def extractStickerFromRect (source : Img) (rect : Rect) (ctx : CanvasEnv)
    (defaultName : String := "sticker") : Option StickerSegment :=
  let strokeWidth : ℤ := 6
  let finalX := cropX rect
  let finalY := cropY rect
  let finalW := cropW source rect
  let finalH := cropH source rect
  if finalW ≤ 0 ∨ finalH ≤ 0 then none
  else if ctx.segCtxOk = false then none
  else
    let seg := removeExterior ⟨finalW.toNat, finalH.toNat, fun x y =>
      source.pix (finalX.toNat + x) (finalY.toNat + y)⟩
    if ctx.silCtxOk = false then none
    else if ctx.finalCtxOk = false then none
    else some ⟨finalX, finalY, finalW + strokeWidth * 2,
      finalH + strokeWidth * 2, defaultName, seg⟩

/-! ## The naming service

`generateStickerName` of the AI service module: the external model call
and the JSON parser are oracles supplied as arguments.  `parse t = none`
models `JSON.parse` throwing (caught by the surrounding `try`),
`some none` a parsed object whose `filename` property is missing or
`null`, and `some (some s)` a string `filename` (the source's
`data.filename || "sticker"` also replaces an empty string, as does the
`if (response.text)` test for an empty response text). -/

/-- The behavior of the external model call: a thrown error (network or
API failure) or a response with an optional text body. -/
inductive ModelResponse where
  | failure : ModelResponse
  | success : Option String → ModelResponse

/-- Embeds `generateStickerName(base64Image, userApiKey)`: `hasKey` is
whether any API key was found, `call` the model call behavior, `parse`
the JSON parse of a response text. -/
def generateStickerName (hasKey : Bool) (call : ModelResponse)
    (parse : String → Option (Option String)) : String :=
  if hasKey = false then "sticker"
  else
    match call with
    | ModelResponse.failure => "sticker"
    | ModelResponse.success none => "sticker"
    | ModelResponse.success (some t) =>
      if t = "" then "sticker"
      else
        match parse t with
        | none => "sticker"
        | some none => "sticker"
        | some (some s) => if s = "" then "sticker" else s

/-- An all-white, fully opaque test buffer. -/
def whiteImg (w h : ℕ) : Img :=
  ⟨w, h, fun _ _ => ⟨255, 255, 255, 255⟩⟩

/-- A 5×5 test buffer: a black ring around the center `(2,2)`, which is
near-white but fully enclosed; the outer border is near-white background. -/
def ring5 : Img :=
  ⟨5, 5, fun x y =>
    if (1 ≤ x ∧ x ≤ 3 ∧ 1 ≤ y ∧ y ≤ 3) ∧ ¬(x = 2 ∧ y = 2) then
      ⟨0, 0, 0, 255⟩
    else ⟨255, 255, 255, 255⟩⟩

/-! ## Claim theorems -/

/-! ## Theorems -/

theorem absorb_snd_sublist (t : ℤ) : ∀ (r : Rect) (xs : List Rect),
    (absorb t r xs).2.Sublist xs := by
  intro r xs
  induction xs generalizing r with
  | nil => simp [absorb]
  | cons x xs ih =>
    by_cases h : mergeClose t r x
    · simp only [absorb, if_pos h]
      exact (ih (unionRect r x)).trans (List.sublist_cons_self x xs)
    · simp only [absorb, if_neg h]
      exact List.Sublist.cons₂ x (ih r)

theorem absorb_snd_length_le (t : ℤ) (r : Rect) (xs : List Rect) :
    (absorb t r xs).2.length ≤ xs.length :=
  (absorb_snd_sublist t r xs).length_le

theorem mergePassAux_nil (t : ℤ) (fuel : ℕ) : mergePassAux t fuel [] = [] := by
  cases fuel <;> rfl

/-- The pass is independent of the iteration bound once the bound covers the
list length: the source's pass is a plain loop over the list. -/
theorem mergePassAux_fuel (t : ℤ) : ∀ (f₁ : ℕ) (l : List Rect) (f₂ : ℕ),
    l.length ≤ f₁ → l.length ≤ f₂ →
    mergePassAux t f₁ l = mergePassAux t f₂ l := by
  intro f₁
  induction f₁ with
  | zero =>
    intro l f₂ h1 _
    have : l = [] := List.length_eq_zero.mp (Nat.le_zero.mp h1)
    subst this
    rw [mergePassAux_nil, mergePassAux_nil]
  | succ k ih =>
    intro l f₂ h1 h2
    match l with
    | [] => rw [mergePassAux_nil, mergePassAux_nil]
    | r :: rs =>
      match f₂ with
      | 0 => simp at h2
      | m + 1 =>
        simp only [mergePassAux]
        have hlen := absorb_snd_length_le t r rs
        simp only [List.length_cons] at h1 h2
        rw [ih (absorb t r rs).2 m (by omega) (by omega)]

theorem absorb_of_not_close (t : ℤ) (r : Rect) (xs : List Rect)
    (h : ∀ x ∈ xs, ¬ mergeClose t r x) : absorb t r xs = (r, xs) := by
  induction xs with
  | nil => rfl
  | cons x xs ih =>
    simp only [absorb, if_neg (h x (List.mem_cons_self x xs))]
    rw [ih (fun y hy => h y (List.mem_cons_of_mem x hy))]

theorem absorb_len_eq (t : ℤ) : ∀ (r : Rect) (xs : List Rect),
    (absorb t r xs).2.length = xs.length →
    absorb t r xs = (r, xs) ∧ ∀ x ∈ xs, ¬ mergeClose t r x := by
  intro r xs
  induction xs generalizing r with
  | nil => intro _; exact ⟨rfl, by simp⟩
  | cons x xs ih =>
    intro hlen
    by_cases h : mergeClose t r x
    · exfalso
      simp only [absorb, if_pos h] at hlen
      have := absorb_snd_length_le t (unionRect r x) xs
      simp only [List.length_cons] at hlen
      omega
    · simp only [absorb, if_neg h, List.length_cons] at hlen ⊢
      have h2 := ih r (Nat.succ_injective hlen)
      refine ⟨?_, ?_⟩
      · rw [h2.1]
      · intro y hy
        rcases List.mem_cons.mp hy with rfl | hy'
        · exact h
        · exact h2.2 y hy'

theorem mergePassAux_length_le (t : ℤ) : ∀ (fuel : ℕ) (l : List Rect),
    l.length ≤ fuel → (mergePassAux t fuel l).length ≤ l.length := by
  intro fuel
  induction fuel with
  | zero => intro l _; exact Nat.le_refl _
  | succ k ih =>
    intro l hl
    match l with
    | [] => simp [mergePassAux_nil]
    | r :: rs =>
      simp only [mergePassAux, List.length_cons]
      have h1 := absorb_snd_length_le t r rs
      have h2 := ih (absorb t r rs).2
        (by simp only [List.length_cons] at hl; omega)
      omega

theorem mergePass_length_le (t : ℤ) (l : List Rect) :
    (mergePass t l).length ≤ l.length :=
  mergePassAux_length_le t l.length l (Nat.le_refl _)

/-- A pass that changes nothing is the identity, and then no two
rectangles of the list are close: each was compared against all later ones. -/
theorem mergePassAux_len_eq (t : ℤ) : ∀ (fuel : ℕ) (l : List Rect),
    l.length ≤ fuel →
    (mergePassAux t fuel l).length = l.length →
    mergePassAux t fuel l = l ∧
      List.Pairwise (fun a b => ¬ mergeClose t a b) l := by
  intro fuel
  induction fuel with
  | zero =>
    intro l hl _
    have : l = [] := List.length_eq_zero.mp (Nat.le_zero.mp hl)
    subst this
    exact ⟨rfl, List.Pairwise.nil⟩
  | succ k ih =>
    intro l hl hlen
    match l with
    | [] => exact ⟨rfl, List.Pairwise.nil⟩
    | r :: rs =>
      simp only [mergePassAux, List.length_cons] at hlen ⊢
      have hs := absorb_snd_length_le t r rs
      have hp := mergePassAux_length_le t k (absorb t r rs).2
        (by simp only [List.length_cons] at hl; omega)
      have hs2 : (absorb t r rs).2.length = rs.length := by omega
      obtain ⟨habs, hnc⟩ := absorb_len_eq t r rs hs2
      rw [habs] at hlen ⊢
      simp only at hlen ⊢
      have hrs : rs.length ≤ k := by simp only [List.length_cons] at hl; omega
      obtain ⟨hfix, hpw⟩ := ih rs hrs (by omega)
      exact ⟨by rw [hfix], List.Pairwise.cons hnc hpw⟩

theorem mergePass_len_eq (t : ℤ) (l : List Rect)
    (h : (mergePass t l).length = l.length) :
    mergePass t l = l ∧ List.Pairwise (fun a b => ¬ mergeClose t a b) l :=
  mergePassAux_len_eq t l.length l (Nat.le_refl _) h

/-- The source's loop exit condition really is reached: the list returned by
the merger is a fixed point of a pass. -/
theorem mergePass_mergeLoop (t : ℤ) : ∀ (fuel : ℕ) (l : List Rect),
    l.length ≤ fuel →
    mergePass t (mergeLoop t fuel l) = mergeLoop t fuel l := by
  intro fuel
  induction fuel with
  | zero =>
    intro l hl
    have : l = [] := List.length_eq_zero.mp (Nat.le_zero.mp hl)
    subst this
    rfl
  | succ k ih =>
    intro l hl
    simp only [mergeLoop]
    by_cases h : (mergePass t l).length = l.length
    · rw [if_pos h]
      have := (mergePass_len_eq t l h).1
      rw [this]
      exact this
    · rw [if_neg h]
      have hle := mergePass_length_le t l
      exact ih (mergePass t l) (by omega)

theorem mergePass_mergeRects (t : ℤ) (l : List Rect) :
    mergePass t (mergeRects l t) = mergeRects l t :=
  mergePass_mergeLoop t l.length l (Nat.le_refl _)

theorem mergeRects_pairwise (l : List Rect) (t : ℤ) :
    List.Pairwise (fun a b => ¬ mergeClose t a b) (mergeRects l t) :=
  (mergePass_len_eq t (mergeRects l t)
    (by rw [mergePass_mergeRects])).2

theorem mergeRects_of_pass_fix (t : ℤ) (l : List Rect)
    (h : mergePass t l = l) : mergeRects l t = l := by
  unfold mergeRects
  match hl : l.length with
  | 0 =>
    have : l = [] := List.length_eq_zero.mp hl
    subst this; rfl
  | k + 1 =>
    simp only [mergeLoop]
    rw [h, if_pos rfl]

theorem rectLE_refl (r : Rect) : rectLE r r :=
  ⟨le_refl _, le_refl _, le_refl _, le_refl _⟩

theorem rectLE_trans {a b c : Rect} (h1 : rectLE a b) (h2 : rectLE b c) :
    rectLE a c :=
  ⟨le_trans h2.1 h1.1, le_trans h1.2.1 h2.2.1,
    le_trans h2.2.2.1 h1.2.2.1, le_trans h1.2.2.2 h2.2.2.2⟩

theorem rectLE_union_left (a b : Rect) : rectLE a (unionRect a b) :=
  ⟨min_le_left _ _, le_max_left _ _, min_le_left _ _, le_max_left _ _⟩

theorem rectLE_union_right (a b : Rect) : rectLE b (unionRect a b) :=
  ⟨min_le_right _ _, le_max_right _ _, min_le_right _ _, le_max_right _ _⟩

theorem absorb_fst_le (t : ℤ) : ∀ (r : Rect) (xs : List Rect),
    rectLE r (absorb t r xs).1 := by
  intro r xs
  induction xs generalizing r with
  | nil => exact rectLE_refl r
  | cons x xs ih =>
    by_cases h : mergeClose t r x
    · simp only [absorb, if_pos h]
      exact rectLE_trans (rectLE_union_left r x) (ih (unionRect r x))
    · simp only [absorb, if_neg h]
      exact ih r

theorem absorb_mem (t : ℤ) : ∀ (r : Rect) (xs : List Rect) (x : Rect),
    x ∈ xs → x ∈ (absorb t r xs).2 ∨ rectLE x (absorb t r xs).1 := by
  intro r xs
  induction xs generalizing r with
  | nil => intro x hx; simp at hx
  | cons y ys ih =>
    intro x hx
    by_cases h : mergeClose t r y
    · simp only [absorb, if_pos h]
      rcases List.mem_cons.mp hx with rfl | hx'
      · exact Or.inr (rectLE_trans (rectLE_union_right r x)
          (absorb_fst_le t (unionRect r x) ys))
      · exact ih (unionRect r y) x hx'
    · simp only [absorb, if_neg h]
      rcases List.mem_cons.mp hx with rfl | hx'
      · exact Or.inl (List.mem_cons_self _ _)
      · rcases ih r x hx' with hm | hle
        · exact Or.inl (List.mem_cons_of_mem y hm)
        · exact Or.inr hle

theorem mergePassAux_mem (t : ℤ) : ∀ (fuel : ℕ) (l : List Rect),
    l.length ≤ fuel →
    ∀ x ∈ l, ∃ y ∈ mergePassAux t fuel l, rectLE x y := by
  intro fuel
  induction fuel with
  | zero =>
    intro l hl x hx
    rw [List.length_eq_zero.mp (Nat.le_zero.mp hl)] at hx
    simp at hx
  | succ k ih =>
    intro l hl x hx
    match l with
    | [] => simp at hx
    | r :: rs =>
      simp only [mergePassAux]
      have hk : (absorb t r rs).2.length ≤ k := by
        have := absorb_snd_length_le t r rs
        simp only [List.length_cons] at hl
        omega
      rcases List.mem_cons.mp hx with rfl | hx'
      · exact ⟨(absorb t x rs).1, List.mem_cons_self _ _, absorb_fst_le t x rs⟩
      · rcases absorb_mem t r rs x hx' with hm | hle
        · obtain ⟨y, hy, hxy⟩ := ih (absorb t r rs).2 hk x hm
          exact ⟨y, List.mem_cons_of_mem _ hy, hxy⟩
        · exact ⟨(absorb t r rs).1, List.mem_cons_self _ _, hle⟩

theorem mergePass_mem (t : ℤ) (l : List Rect) :
    ∀ x ∈ l, ∃ y ∈ mergePass t l, rectLE x y :=
  mergePassAux_mem t l.length l (Nat.le_refl _)

theorem mergeLoop_mem (t : ℤ) : ∀ (fuel : ℕ) (l : List Rect),
    ∀ x ∈ l, ∃ y ∈ mergeLoop t fuel l, rectLE x y := by
  intro fuel
  induction fuel with
  | zero => intro l x hx; exact ⟨x, hx, rectLE_refl x⟩
  | succ k ih =>
    intro l x hx
    simp only [mergeLoop]
    obtain ⟨y, hy, hxy⟩ := mergePass_mem t l x hx
    by_cases h : (mergePass t l).length = l.length
    · rw [if_pos h]; exact ⟨y, hy, hxy⟩
    · rw [if_neg h]
      obtain ⟨z, hz, hyz⟩ := ih (mergePass t l) y hy
      exact ⟨z, hz, rectLE_trans hxy hyz⟩

theorem mergeRects_mem (l : List Rect) (t : ℤ) :
    ∀ x ∈ l, ∃ y ∈ mergeRects l t, rectLE x y :=
  mergeLoop_mem t l.length l

theorem validRect_union {a b : Rect} (ha : validRect a) (_hb : validRect b) :
    validRect (unionRect a b) :=
  ⟨le_trans (min_le_left _ _) (le_trans ha.1 (le_max_left _ _)),
    le_trans (min_le_left _ _) (le_trans ha.2 (le_max_left _ _))⟩

theorem absorb_valid (t : ℤ) : ∀ (r : Rect) (xs : List Rect),
    validRect r → (∀ x ∈ xs, validRect x) →
    validRect (absorb t r xs).1 ∧ ∀ y ∈ (absorb t r xs).2, validRect y := by
  intro r xs
  induction xs generalizing r with
  | nil => intro hr _; exact ⟨hr, by simp [absorb]⟩
  | cons x xs ih =>
    intro hr hxs
    by_cases h : mergeClose t r x
    · simp only [absorb, if_pos h]
      exact ih (unionRect r x)
        (validRect_union hr (hxs x (List.mem_cons_self x xs)))
        (fun y hy => hxs y (List.mem_cons_of_mem x hy))
    · simp only [absorb, if_neg h]
      obtain ⟨h1, h2⟩ := ih r hr (fun y hy => hxs y (List.mem_cons_of_mem x hy))
      refine ⟨h1, ?_⟩
      intro y hy
      rcases List.mem_cons.mp hy with rfl | hy'
      · exact hxs y (List.mem_cons_self y xs)
      · exact h2 y hy'

theorem mergePassAux_valid (t : ℤ) : ∀ (fuel : ℕ) (l : List Rect),
    l.length ≤ fuel → (∀ x ∈ l, validRect x) →
    ∀ y ∈ mergePassAux t fuel l, validRect y := by
  intro fuel
  induction fuel with
  | zero =>
    intro l hl _ y hy
    rw [List.length_eq_zero.mp (Nat.le_zero.mp hl)] at hy
    simp [mergePassAux_nil] at hy
  | succ k ih =>
    intro l hl hv y hy
    match l with
    | [] => simp [mergePassAux_nil] at hy
    | r :: rs =>
      simp only [mergePassAux] at hy
      have hk : (absorb t r rs).2.length ≤ k := by
        have := absorb_snd_length_le t r rs
        simp only [List.length_cons] at hl
        omega
      obtain ⟨h1, h2⟩ := absorb_valid t r rs (hv r (List.mem_cons_self r rs))
        (fun x hx => hv x (List.mem_cons_of_mem r hx))
      rcases List.mem_cons.mp hy with rfl | hy'
      · exact h1
      · exact ih (absorb t r rs).2 hk h2 y hy'

theorem mergeLoop_valid (t : ℤ) : ∀ (fuel : ℕ) (l : List Rect),
    (∀ x ∈ l, validRect x) → ∀ y ∈ mergeLoop t fuel l, validRect y := by
  intro fuel
  induction fuel with
  | zero => intro l hv y hy; exact hv y hy
  | succ k ih =>
    intro l hv y hy
    simp only [mergeLoop] at hy
    have hpass := mergePassAux_valid t l.length l (Nat.le_refl _) hv
    by_cases h : (mergePass t l).length = l.length
    · rw [if_pos h] at hy; exact hpass y hy
    · rw [if_neg h] at hy; exact ih (mergePass t l) hpass y hy

theorem mergeRects_valid (l : List Rect) (t : ℤ)
    (hv : ∀ x ∈ l, validRect x) : ∀ y ∈ mergeRects l t, validRect y :=
  mergeLoop_valid t l.length l hv

theorem mergePass_ne_lt (t : ℤ) (l : List Rect)
    (h : mergePass t l ≠ l) : (mergePass t l).length < l.length := by
  have hle := mergePass_length_le t l
  rcases Nat.lt_or_ge (mergePass t l).length l.length with hlt | hge
  · exact hlt
  · exact absurd (mergePass_len_eq t l (Nat.le_antisymm hle hge)).1 h

theorem mem_gridF {img : Img} {c : Cell} :
    c ∈ gridF img ↔ c.1 < img.width ∧ c.2 < img.height := by
  simp [gridF, Finset.mem_product]

theorem card_gridF (img : Img) : (gridF img).card = img.width * img.height := by
  simp [gridF, Finset.card_product]

theorem adjacent_symm {c d : Cell} (h : adjacent c d) : adjacent d c := by
  unfold adjacent at h ⊢
  tauto

theorem step_symm {img : Img} {c d : Cell} (h : step img c d) : step img d c :=
  ⟨h.2.1, h.1, adjacent_symm h.2.2⟩

theorem reach_symm {img : Img} {c d : Cell} (h : reach img c d) :
    reach img d c :=
  Relation.ReflTransGen.symmetric (fun _ _ hs => step_symm hs) h

theorem adjacent_mem_dNbrs {c d : Cell} (h : adjacent c d) : d ∈ dNbrs c := by
  simp only [dNbrs, List.mem_append, List.mem_singleton]
  rcases h with ⟨h1, h2⟩ | ⟨h1, h2⟩ | ⟨h1, h2⟩ | ⟨h1, h2⟩
  · exact Or.inl (Or.inl (Or.inl (Prod.ext_iff.mpr ⟨h1, h2⟩)))
  · refine Or.inl (Or.inl (Or.inr ?_))
    have hc : 0 < c.1 := by omega
    rw [if_pos hc]
    simp only [List.mem_singleton]
    exact Prod.ext_iff.mpr ⟨by omega, h2⟩
  · exact Or.inl (Or.inr (Prod.ext_iff.mpr ⟨h2, h1⟩))
  · refine Or.inr ?_
    have hc : 0 < c.2 := by omega
    rw [if_pos hc]
    simp only [List.mem_singleton]
    exact Prod.ext_iff.mpr ⟨h2, by omega⟩

theorem dNbrs_adjacent {c d : Cell} (h : d ∈ dNbrs c) : adjacent c d := by
  simp only [dNbrs, List.mem_append, List.mem_singleton] at h
  rcases h with ((h | h) | h) | h
  · subst h; exact Or.inl ⟨rfl, rfl⟩
  · by_cases hc : 0 < c.1
    · rw [if_pos hc] at h
      simp only [List.mem_singleton] at h
      subst h
      exact Or.inr (Or.inl ⟨by omega, rfl⟩)
    · rw [if_neg hc] at h; simp at h
  · subst h; exact Or.inr (Or.inr (Or.inl ⟨rfl, rfl⟩))
  · by_cases hc : 0 < c.2
    · rw [if_pos hc] at h
      simp only [List.mem_singleton] at h
      subst h
      exact Or.inr (Or.inr (Or.inr ⟨by omega, rfl⟩))
    · rw [if_neg hc] at h; simp at h

theorem PushFacts.self {img : Img} {V₀ : Finset Cell} {c0 : Cell} {st : FillSt}
    (hgrid : st.visited ⊆ gridF img)
    (hsv : ∀ x ∈ st.stack, x ∈ st.visited)
    (hnd : st.stack.Nodup) : PushFacts img V₀ c0 st st where
  mono := Finset.Subset.refl _
  vnew := fun v hv => Or.inl hv
  grid := hgrid
  stackOld := fun x hx => hx
  stackNew := fun x hx => Or.inl hx
  stackVis := hsv
  newInStack := fun v hv hnv => absurd hv hnv
  nodup := hnd
  counts := by omega
  proc := rfl
  statMinX := rfl
  statMaxX := rfl
  statMinY := rfl
  statMaxY := rfl
  statCount := rfl

theorem PushFacts.trans {img : Img} {V₀ : Finset Cell} {c0 : Cell}
    {st1 st2 st3 : FillSt} (h12 : PushFacts img V₀ c0 st1 st2)
    (h23 : PushFacts img V₀ c0 st2 st3) : PushFacts img V₀ c0 st1 st3 where
  mono := h12.mono.trans h23.mono
  vnew := by
    intro v hv
    rcases h23.vnew v hv with h2 | ⟨hn2, hnb, hs⟩
    · rcases h12.vnew v h2 with h1 | ⟨hn1, hnb, hs⟩
      · exact Or.inl h1
      · exact Or.inr ⟨hn1, hnb, hs⟩
    · exact Or.inr ⟨fun hv1 => hn2 (h12.mono hv1), hnb, hs⟩
  grid := h23.grid
  stackOld := fun x hx => h23.stackOld x (h12.stackOld x hx)
  stackNew := by
    intro x hx
    rcases h23.stackNew x hx with h2 | ⟨hv3, hn2⟩
    · rcases h12.stackNew x h2 with h1 | ⟨hv2, hn1⟩
      · exact Or.inl h1
      · exact Or.inr ⟨h23.mono hv2, hn1⟩
    · exact Or.inr ⟨hv3, fun hv1 => hn2 (h12.mono hv1)⟩
  stackVis := h23.stackVis
  newInStack := by
    intro v hv3 hn1
    by_cases h2 : v ∈ st2.visited
    · exact h23.stackOld v (h12.newInStack v h2 hn1)
    · exact h23.newInStack v hv3 h2
  nodup := h23.nodup
  counts := by have := h12.counts; have := h23.counts; omega
  proc := h23.proc.trans h12.proc
  statMinX := h23.statMinX.trans h12.statMinX
  statMaxX := h23.statMaxX.trans h12.statMaxX
  statMinY := h23.statMinY.trans h12.statMinY
  statMaxY := h23.statMaxY.trans h12.statMaxY
  statCount := h23.statCount.trans h12.statCount

theorem min'_of_eq {s t : Finset ℕ} (h : s = t) (hs : s.Nonempty)
    (ht : t.Nonempty) : s.min' hs = t.min' ht := by
  subst h; rfl

theorem max'_of_eq {s t : Finset ℕ} (h : s = t) (hs : s.Nonempty)
    (ht : t.Nonempty) : s.max' hs = t.max' ht := by
  subst h; rfl

theorem compMinX_insert (a : Cell) (C : Finset Cell) (h : C.Nonempty) :
    compMinX (insert a C) (Finset.insert_nonempty a C) = min (compMinX C h) a.1 :=
  (min'_of_eq (Finset.image_insert _ _ _) _ (Finset.insert_nonempty _ _)).trans
    (Finset.min'_insert _ _ (h.image _))

theorem compMaxX_insert (a : Cell) (C : Finset Cell) (h : C.Nonempty) :
    compMaxX (insert a C) (Finset.insert_nonempty a C) = max (compMaxX C h) a.1 :=
  (max'_of_eq (Finset.image_insert _ _ _) _ (Finset.insert_nonempty _ _)).trans
    (Finset.max'_insert _ _ (h.image _))

theorem compMinY_insert (a : Cell) (C : Finset Cell) (h : C.Nonempty) :
    compMinY (insert a C) (Finset.insert_nonempty a C) = min (compMinY C h) a.2 :=
  (min'_of_eq (Finset.image_insert _ _ _) _ (Finset.insert_nonempty _ _)).trans
    (Finset.min'_insert _ _ (h.image _))

theorem compMaxY_insert (a : Cell) (C : Finset Cell) (h : C.Nonempty) :
    compMaxY (insert a C) (Finset.insert_nonempty a C) = max (compMaxY C h) a.2 :=
  (max'_of_eq (Finset.image_insert _ _ _) _ (Finset.insert_nonempty _ _)).trans
    (Finset.max'_insert _ _ (h.image _))

theorem dPush_facts (img : Img) (V₀ : Finset Cell) (c0 : Cell)
    (st : FillSt) (n : Cell)
    (hgrid : st.visited ⊆ gridF img)
    (hsv : ∀ x ∈ st.stack, x ∈ st.visited)
    (hnd : st.stack.Nodup)
    (hn : nonbg img n → step img c0 n) :
    PushFacts img V₀ c0 st (dPush img st n) := by
  unfold dPush
  by_cases hc : n.1 < img.width ∧ n.2 < img.height ∧ n ∉ st.visited ∧
      bgAt img n = false
  · rw [if_pos hc]
    obtain ⟨h1, h2, h3, h4⟩ := hc
    have hng : n ∈ gridF img := mem_gridF.mpr ⟨h1, h2⟩
    have hnb : nonbg img n := ⟨hng, h4⟩
    have hns : n ∉ st.stack := fun hmem => h3 (hsv n hmem)
    refine
      { mono := Finset.subset_insert n st.visited
        vnew := ?_
        grid := Finset.insert_subset_iff.mpr ⟨hng, hgrid⟩
        stackOld := fun x hx => List.mem_cons_of_mem n hx
        stackNew := ?_
        stackVis := ?_
        newInStack := ?_
        nodup := List.Nodup.cons hns hnd
        counts := ?_
        proc := ?_
        statMinX := rfl
        statMaxX := rfl
        statMinY := rfl
        statMaxY := rfl
        statCount := rfl }
    · intro v hv
      rcases Finset.mem_insert.mp hv with rfl | hv'
      · exact Or.inr ⟨h3, hnb, hn hnb⟩
      · exact Or.inl hv'
    · intro x hx
      rcases List.mem_cons.mp hx with rfl | hx'
      · exact Or.inr ⟨Finset.mem_insert_self x _, h3⟩
      · exact Or.inl hx'
    · intro x hx
      rcases List.mem_cons.mp hx with rfl | hx'
      · exact Finset.mem_insert_self x _
      · exact Finset.mem_insert_of_mem (hsv x hx')
    · intro v hv hnv
      rcases Finset.mem_insert.mp hv with rfl | hv'
      · exact List.mem_cons_self v _
      · exact absurd hv' hnv
    · simp only [Finset.card_insert_of_not_mem h3, List.length_cons]
      omega
    · apply Finset.ext
      intro x
      simp only [procSet, Finset.mem_sdiff, List.toFinset_cons, List.mem_toFinset,
        Finset.mem_insert]
      constructor
      · rintro ⟨⟨hx1 | hx1, hx2⟩, hx3⟩
        · exact absurd (Or.inl hx1) hx3
        · have : x ≠ n := fun he => h3 (he ▸ hx1)
          exact ⟨⟨hx1, hx2⟩, fun hm => hx3 (Or.inr hm)⟩
      · rintro ⟨⟨hx1, hx2⟩, hx3⟩
        have : x ≠ n := fun he => h3 (he ▸ hx1)
        exact ⟨⟨Or.inr hx1, hx2⟩, fun hm => hm.elim this hx3⟩
  · rw [if_neg hc]
    exact PushFacts.self hgrid hsv hnd

theorem dPush_mem (img : Img) (st : FillSt) (n : Cell)
    (h1 : n.1 < img.width) (h2 : n.2 < img.height) (h3 : bgAt img n = false) :
    n ∈ (dPush img st n).visited := by
  unfold dPush
  by_cases hc : n.1 < img.width ∧ n.2 < img.height ∧ n ∉ st.visited ∧
      bgAt img n = false
  · rw [if_pos hc]
    exact Finset.mem_insert_self n _
  · rw [if_neg hc]
    by_cases hv : n ∈ st.visited
    · exact hv
    · exact absurd ⟨h1, h2, hv, h3⟩ hc

theorem dPushList_facts (img : Img) (V₀ : Finset Cell) (c0 : Cell) :
    ∀ (ns : List Cell) (st : FillSt),
    st.visited ⊆ gridF img →
    (∀ x ∈ st.stack, x ∈ st.visited) →
    st.stack.Nodup →
    (∀ n ∈ ns, nonbg img n → step img c0 n) →
    PushFacts img V₀ c0 st (ns.foldl (dPush img) st) ∧
      ∀ n ∈ ns, n.1 < img.width → n.2 < img.height → bgAt img n = false →
        n ∈ (ns.foldl (dPush img) st).visited := by
  intro ns
  induction ns with
  | nil =>
    intro st hgrid hsv hnd _
    exact ⟨PushFacts.self hgrid hsv hnd, by simp⟩
  | cons n ns ih =>
    intro st hgrid hsv hnd hns
    have hp := dPush_facts img V₀ c0 st n hgrid hsv hnd
      (hns n (List.mem_cons_self n ns))
    have hih := ih (dPush img st n) hp.grid hp.stackVis hp.nodup
      (fun m hm => hns m (List.mem_cons_of_mem n hm))
    simp only [List.foldl_cons]
    refine ⟨hp.trans hih.1, ?_⟩
    intro m hm hm1 hm2 hm3
    rcases List.mem_cons.mp hm with rfl | hm'
    · exact hih.1.mono (dPush_mem img st m hm1 hm2 hm3)
    · exact hih.2 m hm' hm1 hm2 hm3

theorem compMinX_congr {C D : Finset Cell} (h : C = D) (hC : C.Nonempty)
    (hD : D.Nonempty) : compMinX C hC = compMinX D hD := by subst h; rfl

theorem compMaxX_congr {C D : Finset Cell} (h : C = D) (hC : C.Nonempty)
    (hD : D.Nonempty) : compMaxX C hC = compMaxX D hD := by subst h; rfl

theorem compMinY_congr {C D : Finset Cell} (h : C = D) (hC : C.Nonempty)
    (hD : D.Nonempty) : compMinY C hC = compMinY D hD := by subst h; rfl

theorem compMaxY_congr {C D : Finset Cell} (h : C = D) (hC : C.Nonempty)
    (hD : D.Nonempty) : compMaxY C hC = compMaxY D hD := by subst h; rfl

theorem fill_iteration (img : Img) (V₀ : Finset Cell) (s₀ : Cell)
    (st : FillSt) (c : Cell) (rest : List Cell)
    (hst : st.stack = c :: rest) (hinv : DInv img V₀ s₀ st) :
    DInv img V₀ s₀ ((dNbrs c).foldl (dPush img)
      ⟨st.visited, rest, min st.minX c.1, max st.maxX c.1,
        min st.minY c.2, max st.maxY c.2, st.count + 1⟩) ∧
    fillMeasure img ((dNbrs c).foldl (dPush img)
      ⟨st.visited, rest, min st.minX c.1, max st.maxX c.1,
        min st.minY c.2, max st.maxY c.2, st.count + 1⟩) + 1
      = fillMeasure img st ∧
    st.visited ⊆ ((dNbrs c).foldl (dPush img)
      ⟨st.visited, rest, min st.minX c.1, max st.maxX c.1,
        min st.minY c.2, max st.maxY c.2, st.count + 1⟩).visited := by
  have hcS : c ∈ st.stack := hst ▸ List.mem_cons_self c rest
  have hcV : c ∈ st.visited := hinv.stackVis c hcS
  have hcV0 : c ∉ V₀ := hinv.stackNotV0 c hcS
  have hcnb : nonbg img c := hinv.nonbgNew c hcV hcV0
  have hcreach : reach img s₀ c := hinv.reachNew c hcV hcV0
  have hnd : (c :: rest).Nodup := hst ▸ hinv.nodup
  have hcrest : c ∉ rest := (List.nodup_cons.mp hnd).1
  have hrestnd : rest.Nodup := (List.nodup_cons.mp hnd).2
  have hrestVis : ∀ x ∈ rest, x ∈ st.visited := fun x hx =>
    hinv.stackVis x (hst ▸ List.mem_cons_of_mem c hx)
  have hrestV0 : ∀ x ∈ rest, x ∉ V₀ := fun x hx =>
    hinv.stackNotV0 x (hst ▸ List.mem_cons_of_mem c hx)
  have hcproc : c ∉ procSet V₀ st := by
    intro hmem
    simp only [procSet, Finset.mem_sdiff, List.mem_toFinset] at hmem
    exact hmem.2 hcS
  have hproc1 : procSet V₀
      (⟨st.visited, rest, min st.minX c.1, max st.maxX c.1,
        min st.minY c.2, max st.maxY c.2, st.count + 1⟩ : FillSt)
      = insert c (procSet V₀ st) := by
    apply Finset.ext
    intro x
    simp only [procSet, Finset.mem_sdiff, List.mem_toFinset, Finset.mem_insert, hst]
    constructor
    · rintro ⟨⟨hxv, hxV0⟩, hxr⟩
      by_cases hxc : x = c
      · exact Or.inl hxc
      · exact Or.inr ⟨⟨hxv, hxV0⟩, fun hm => (List.mem_cons.mp hm).elim hxc hxr⟩
    · rintro (rfl | ⟨⟨hxv, hxV0⟩, hxcr⟩)
      · exact ⟨⟨hcV, hcV0⟩, hcrest⟩
      · exact ⟨⟨hxv, hxV0⟩, fun hm => hxcr (List.mem_cons_of_mem c hm)⟩
  obtain ⟨PF, hpushed⟩ := dPushList_facts img V₀ c (dNbrs c)
    ⟨st.visited, rest, min st.minX c.1, max st.maxX c.1,
      min st.minY c.2, max st.maxY c.2, st.count + 1⟩
    hinv.grid hrestVis hrestnd
    (fun n hn hnb => ⟨hcnb, hnb, dNbrs_adjacent hn⟩)
  have hproc2 : procSet V₀ ((dNbrs c).foldl (dPush img)
      ⟨st.visited, rest, min st.minX c.1, max st.maxX c.1,
        min st.minY c.2, max st.maxY c.2, st.count + 1⟩)
      = insert c (procSet V₀ st) := PF.proc.trans hproc1
  refine ⟨?_, ?_, PF.mono⟩
  · refine
      { grid := PF.grid
        v0 := fun x hx => PF.mono (hinv.v0 hx)
        nodup := PF.nodup
        stackVis := PF.stackVis
        stackNotV0 := ?_
        reachNew := ?_
        nonbgNew := ?_
        closed := ?_
        sMinX := ?_
        sMaxX := ?_
        sMinY := ?_
        sMaxY := ?_
        sCount := ?_ }
    · intro x hx hx0
      rcases PF.stackNew x hx with hr | ⟨_, hnv⟩
      · exact hrestV0 x hr hx0
      · exact hnv (hinv.v0 hx0)
    · intro v hv hv0
      rcases PF.vnew v hv with h | ⟨_, _, hs⟩
      · exact hinv.reachNew v h hv0
      · exact hcreach.tail hs
    · intro v hv hv0
      rcases PF.vnew v hv with h | ⟨_, hnb, _⟩
      · exact hinv.nonbgNew v h hv0
      · exact hnb
    · intro v hv d hadj hdw hdh hdbg
      rw [hproc2] at hv
      rcases Finset.mem_insert.mp hv with rfl | hv'
      · exact hpushed d (adjacent_mem_dNbrs hadj) hdw hdh hdbg
      · exact PF.mono (hinv.closed v hv' d hadj hdw hdh hdbg)
    · rw [PF.statMinX]
      show min st.minX c.1 = _
      have hset : insert s₀ (procSet V₀ ((dNbrs c).foldl (dPush img)
          ⟨st.visited, rest, min st.minX c.1, max st.maxX c.1,
            min st.minY c.2, max st.maxY c.2, st.count + 1⟩))
          = insert c (insert s₀ (procSet V₀ st)) := by
        rw [hproc2]; exact Finset.Insert.comm s₀ c (procSet V₀ st)
      calc min st.minX c.1
          = min (compMinX (insert s₀ (procSet V₀ st))
              (Finset.insert_nonempty _ _)) c.1 := by rw [hinv.sMinX]
        _ = compMinX (insert c (insert s₀ (procSet V₀ st)))
              (Finset.insert_nonempty _ _) :=
            (compMinX_insert c _ (Finset.insert_nonempty _ _)).symm
        _ = _ := (compMinX_congr hset (Finset.insert_nonempty _ _)
              (Finset.insert_nonempty _ _)).symm
    · rw [PF.statMaxX]
      show max st.maxX c.1 = _
      have hset : insert s₀ (procSet V₀ ((dNbrs c).foldl (dPush img)
          ⟨st.visited, rest, min st.minX c.1, max st.maxX c.1,
            min st.minY c.2, max st.maxY c.2, st.count + 1⟩))
          = insert c (insert s₀ (procSet V₀ st)) := by
        rw [hproc2]; exact Finset.Insert.comm s₀ c (procSet V₀ st)
      calc max st.maxX c.1
          = max (compMaxX (insert s₀ (procSet V₀ st))
              (Finset.insert_nonempty _ _)) c.1 := by rw [hinv.sMaxX]
        _ = compMaxX (insert c (insert s₀ (procSet V₀ st)))
              (Finset.insert_nonempty _ _) :=
            (compMaxX_insert c _ (Finset.insert_nonempty _ _)).symm
        _ = _ := (compMaxX_congr hset (Finset.insert_nonempty _ _)
              (Finset.insert_nonempty _ _)).symm
    · rw [PF.statMinY]
      show min st.minY c.2 = _
      have hset : insert s₀ (procSet V₀ ((dNbrs c).foldl (dPush img)
          ⟨st.visited, rest, min st.minX c.1, max st.maxX c.1,
            min st.minY c.2, max st.maxY c.2, st.count + 1⟩))
          = insert c (insert s₀ (procSet V₀ st)) := by
        rw [hproc2]; exact Finset.Insert.comm s₀ c (procSet V₀ st)
      calc min st.minY c.2
          = min (compMinY (insert s₀ (procSet V₀ st))
              (Finset.insert_nonempty _ _)) c.2 := by rw [hinv.sMinY]
        _ = compMinY (insert c (insert s₀ (procSet V₀ st)))
              (Finset.insert_nonempty _ _) :=
            (compMinY_insert c _ (Finset.insert_nonempty _ _)).symm
        _ = _ := (compMinY_congr hset (Finset.insert_nonempty _ _)
              (Finset.insert_nonempty _ _)).symm
    · rw [PF.statMaxY]
      show max st.maxY c.2 = _
      have hset : insert s₀ (procSet V₀ ((dNbrs c).foldl (dPush img)
          ⟨st.visited, rest, min st.minX c.1, max st.maxX c.1,
            min st.minY c.2, max st.maxY c.2, st.count + 1⟩))
          = insert c (insert s₀ (procSet V₀ st)) := by
        rw [hproc2]; exact Finset.Insert.comm s₀ c (procSet V₀ st)
      calc max st.maxY c.2
          = max (compMaxY (insert s₀ (procSet V₀ st))
              (Finset.insert_nonempty _ _)) c.2 := by rw [hinv.sMaxY]
        _ = compMaxY (insert c (insert s₀ (procSet V₀ st)))
              (Finset.insert_nonempty _ _) :=
            (compMaxY_insert c _ (Finset.insert_nonempty _ _)).symm
        _ = _ := (compMaxY_congr hset (Finset.insert_nonempty _ _)
              (Finset.insert_nonempty _ _)).symm
    · rw [PF.statCount]
      show st.count + 1 = _
      calc st.count + 1
          = (procSet V₀ st).card + 1 := by rw [hinv.sCount]
        _ = (insert c (procSet V₀ st)).card :=
            (Finset.card_insert_of_not_mem hcproc).symm
        _ = _ := by rw [hproc2]
  · have hc1 := PF.counts
    have hmono := Finset.card_le_card PF.mono
    have hgr := Finset.card_le_card PF.grid
    unfold fillMeasure
    dsimp only at hc1 hmono hgr ⊢
    rw [hst]
    simp only [List.length_cons]
    omega

theorem fillLoop_master (img : Img) (V₀ : Finset Cell) (s₀ : Cell) :
    ∀ (fuel : ℕ) (st : FillSt), DInv img V₀ s₀ st →
    fillMeasure img st ≤ fuel →
    DInv img V₀ s₀ (fillLoop img fuel st) ∧
      (fillLoop img fuel st).stack = [] ∧
      st.visited ⊆ (fillLoop img fuel st).visited := by
  intro fuel
  induction fuel with
  | zero =>
    intro st hinv hm
    have hlen : st.stack.length = 0 := by unfold fillMeasure at hm; omega
    exact ⟨hinv, List.length_eq_zero.mp hlen, Finset.Subset.refl _⟩
  | succ f ih =>
    intro st hinv hm
    rcases hst : st.stack with _ | ⟨c, rest⟩
    · simp only [fillLoop, hst]
      exact ⟨hinv, trivial, Finset.Subset.refl _⟩
    · simp only [fillLoop, hst]
      obtain ⟨hi2, hm2, hsub2⟩ := fill_iteration img V₀ s₀ st c rest hst hinv
      obtain ⟨ha, hb, hsub3⟩ := ih _ hi2 (by omega)
      exact ⟨ha, hb, hsub2.trans hsub3⟩

theorem compMinX_singleton (a : Cell) :
    compMinX {a} (Finset.singleton_nonempty a) = a.1 :=
  (min'_of_eq (Finset.image_singleton _ _) _
    (Finset.singleton_nonempty _)).trans (Finset.min'_singleton _)

theorem compMaxX_singleton (a : Cell) :
    compMaxX {a} (Finset.singleton_nonempty a) = a.1 :=
  (max'_of_eq (Finset.image_singleton _ _) _
    (Finset.singleton_nonempty _)).trans (Finset.max'_singleton _)

theorem compMinY_singleton (a : Cell) :
    compMinY {a} (Finset.singleton_nonempty a) = a.2 :=
  (min'_of_eq (Finset.image_singleton _ _) _
    (Finset.singleton_nonempty _)).trans (Finset.min'_singleton _)

theorem compMaxY_singleton (a : Cell) :
    compMaxY {a} (Finset.singleton_nonempty a) = a.2 :=
  (max'_of_eq (Finset.image_singleton _ _) _
    (Finset.singleton_nonempty _)).trans (Finset.max'_singleton _)

/-- The full correctness of one detector flood fill: starting from a
non-background seed not yet visited, with a visited set that is closed
under steps, the fill visits exactly one whole connected component, and
its stats are the bounding box and cardinality of that component. -/
theorem fill_result (img : Img) (V₀ : Finset Cell) (s₀ : Cell)
    (hgridV : V₀ ⊆ gridF img)
    (hclV : ∀ c ∈ V₀, ∀ d, step img c d → d ∈ V₀)
    (hs0V : s₀ ∉ V₀) (hs0 : nonbg img s₀) :
    ∃ C : Finset Cell, ∃ hC : IsComponent img C,
      (detFill img V₀ s₀).visited = V₀ ∪ C ∧ s₀ ∈ C ∧
      (detFill img V₀ s₀).minX = compMinX C hC.1 ∧
      (detFill img V₀ s₀).maxX = compMaxX C hC.1 ∧
      (detFill img V₀ s₀).minY = compMinY C hC.1 ∧
      (detFill img V₀ s₀).maxY = compMaxY C hC.1 ∧
      (detFill img V₀ s₀).count = C.card := by
  unfold detFill
  have hproc0 : procSet V₀
      (⟨insert s₀ V₀, [s₀], s₀.1, s₀.1, s₀.2, s₀.2, 0⟩ : FillSt) = ∅ := by
    apply Finset.eq_empty_iff_forall_not_mem.mpr
    intro x hx
    simp only [procSet, Finset.mem_sdiff, List.mem_toFinset,
      List.mem_singleton, Finset.mem_insert] at hx
    rcases hx with ⟨⟨hx1 | hx1, hx2⟩, hx3⟩
    · exact hx3 hx1
    · exact hx2 hx1
  have hset0 : insert s₀ (procSet V₀
      (⟨insert s₀ V₀, [s₀], s₀.1, s₀.1, s₀.2, s₀.2, 0⟩ : FillSt)) = {s₀} := by
    rw [hproc0]
    rfl
  have hinv0 : DInv img V₀ s₀ ⟨insert s₀ V₀, [s₀], s₀.1, s₀.1, s₀.2, s₀.2, 0⟩ := by
    refine
      { grid := Finset.insert_subset_iff.mpr ⟨hs0.1, hgridV⟩
        v0 := Finset.subset_insert s₀ V₀
        nodup := List.nodup_singleton s₀
        stackVis := ?_
        stackNotV0 := ?_
        reachNew := ?_
        nonbgNew := ?_
        closed := ?_
        sMinX := ?_
        sMaxX := ?_
        sMinY := ?_
        sMaxY := ?_
        sCount := ?_ }
    · intro x hx
      rw [List.mem_singleton] at hx
      subst hx
      exact Finset.mem_insert_self x V₀
    · intro x hx
      rw [List.mem_singleton] at hx
      subst hx
      exact hs0V
    · intro x hx hx0
      rcases Finset.mem_insert.mp hx with rfl | h
      · exact Relation.ReflTransGen.refl
      · exact absurd h hx0
    · intro x hx hx0
      rcases Finset.mem_insert.mp hx with rfl | h
      · exact hs0
      · exact absurd h hx0
    · intro x hx
      rw [hproc0] at hx
      exact absurd hx (Finset.not_mem_empty x)
    · exact ((compMinX_congr hset0 (Finset.insert_nonempty _ _)
        (Finset.singleton_nonempty _)).trans (compMinX_singleton s₀)).symm
    · exact ((compMaxX_congr hset0 (Finset.insert_nonempty _ _)
        (Finset.singleton_nonempty _)).trans (compMaxX_singleton s₀)).symm
    · exact ((compMinY_congr hset0 (Finset.insert_nonempty _ _)
        (Finset.singleton_nonempty _)).trans (compMinY_singleton s₀)).symm
    · exact ((compMaxY_congr hset0 (Finset.insert_nonempty _ _)
        (Finset.singleton_nonempty _)).trans (compMaxY_singleton s₀)).symm
    · show 0 = (procSet V₀ _).card
      rw [hproc0]
      rfl
  have hm0 : fillMeasure img
      ⟨insert s₀ V₀, [s₀], s₀.1, s₀.1, s₀.2, s₀.2, 0⟩ ≤
      img.width * img.height := by
    have h1 : (insert s₀ V₀).card = V₀.card + 1 :=
      Finset.card_insert_of_not_mem hs0V
    have h2 : 0 < (gridF img).card := Finset.card_pos.mpr ⟨s₀, hs0.1⟩
    unfold fillMeasure
    dsimp only
    rw [← card_gridF img]
    simp only [List.length_singleton]
    omega
  obtain ⟨hinv', hstack', hsub'⟩ := fillLoop_master img V₀ s₀
    (img.width * img.height) ⟨insert s₀ V₀, [s₀], s₀.1, s₀.1, s₀.2, s₀.2, 0⟩
    hinv0 hm0
  have hPC : procSet V₀ (fillLoop img (img.width * img.height)
      ⟨insert s₀ V₀, [s₀], s₀.1, s₀.1, s₀.2, s₀.2, 0⟩)
      = (fillLoop img (img.width * img.height)
        ⟨insert s₀ V₀, [s₀], s₀.1, s₀.1, s₀.2, s₀.2, 0⟩).visited \ V₀ := by
    unfold procSet
    rw [hstack']
    simp
  have hs0C : s₀ ∈ (fillLoop img (img.width * img.height)
      ⟨insert s₀ V₀, [s₀], s₀.1, s₀.1, s₀.2, s₀.2, 0⟩).visited \ V₀ :=
    Finset.mem_sdiff.mpr ⟨hsub' (Finset.mem_insert_self s₀ V₀), hs0V⟩
  have hC : IsComponent img ((fillLoop img (img.width * img.height)
      ⟨insert s₀ V₀, [s₀], s₀.1, s₀.1, s₀.2, s₀.2, 0⟩).visited \ V₀) := by
    refine ⟨⟨s₀, hs0C⟩, ?_, ?_, ?_⟩
    · intro c hc
      have hm := Finset.mem_sdiff.mp hc
      exact hinv'.nonbgNew c hm.1 hm.2
    · intro c hc d hd
      have hmc := Finset.mem_sdiff.mp hc
      have hmd := Finset.mem_sdiff.mp hd
      exact (reach_symm (hinv'.reachNew c hmc.1 hmc.2)).trans
        (hinv'.reachNew d hmd.1 hmd.2)
    · intro c hc d hs
      have hdg := mem_gridF.mp hs.2.1.1
      have hdv : d ∈ (fillLoop img (img.width * img.height)
          ⟨insert s₀ V₀, [s₀], s₀.1, s₀.1, s₀.2, s₀.2, 0⟩).visited :=
        hinv'.closed c (hPC ▸ hc) d hs.2.2 hdg.1 hdg.2 hs.2.1.2
      have hd0 : d ∉ V₀ := fun hd0 =>
        (Finset.mem_sdiff.mp hc).2 (hclV d hd0 c (step_symm hs))
      exact Finset.mem_sdiff.mpr ⟨hdv, hd0⟩
  have hsetC : insert s₀ (procSet V₀ (fillLoop img (img.width * img.height)
      ⟨insert s₀ V₀, [s₀], s₀.1, s₀.1, s₀.2, s₀.2, 0⟩))
      = (fillLoop img (img.width * img.height)
        ⟨insert s₀ V₀, [s₀], s₀.1, s₀.1, s₀.2, s₀.2, 0⟩).visited \ V₀ := by
    rw [hPC]
    exact Finset.insert_eq_self.mpr hs0C
  refine ⟨_, hC, ?_, hs0C, ?_, ?_, ?_, ?_, ?_⟩
  · apply Finset.ext
    intro x
    simp only [Finset.mem_union, Finset.mem_sdiff]
    constructor
    · intro hx
      by_cases h0 : x ∈ V₀
      · exact Or.inl h0
      · exact Or.inr ⟨hx, h0⟩
    · rintro (hx | ⟨hx, _⟩)
      · exact hinv'.v0 hx
      · exact hx
  · exact hinv'.sMinX.trans
      (compMinX_congr hsetC (Finset.insert_nonempty _ _) hC.1)
  · exact hinv'.sMaxX.trans
      (compMaxX_congr hsetC (Finset.insert_nonempty _ _) hC.1)
  · exact hinv'.sMinY.trans
      (compMinY_congr hsetC (Finset.insert_nonempty _ _) hC.1)
  · exact hinv'.sMaxY.trans
      (compMaxY_congr hsetC (Finset.insert_nonempty _ _) hC.1)
  · rw [hinv'.sCount, hPC]

theorem comp_subset {img : Img} {C D : Finset Cell} (hC : IsComponent img C)
    (hD : IsComponent img D) {c : Cell} (hcC : c ∈ C) (hcD : c ∈ D) :
    C ⊆ D := by
  intro x hx
  have hr : reach img c x := hC.2.2.1 c hcC x hx
  clear hx
  induction hr with
  | refl => exact hcD
  | tail _ h2 ih => exact hD.2.2.2 _ ih _ h2

/-- Two connected components sharing a cell are equal. -/
theorem comp_unique {img : Img} {C D : Finset Cell} (hC : IsComponent img C)
    (hD : IsComponent img D) {c : Cell} (hcC : c ∈ C) (hcD : c ∈ D) :
    C = D :=
  Finset.Subset.antisymm (comp_subset hC hD hcC hcD)
    (comp_subset hD hC hcD hcC)

theorem scanCell_inv (img : Img) (acc : Finset Cell × List Rect) (c : Cell)
    (hinv : ScanInv img acc) (hcg : c ∈ gridF img) :
    ScanInv img (scanCell img acc c) ∧ acc.1 ⊆ (scanCell img acc c).1 ∧
    (∀ r ∈ acc.2, r ∈ (scanCell img acc c).2) ∧
    (bgAt img c = false → c ∈ (scanCell img acc c).1) := by
  unfold scanCell
  by_cases h1 : c ∈ acc.1
  · rw [if_pos h1]
    exact ⟨hinv, Finset.Subset.refl _, fun r hr => hr, fun _ => h1⟩
  · rw [if_neg h1]
    by_cases h2 : bgAt img c
    · rw [if_pos h2]
      exact ⟨hinv, Finset.Subset.refl _, fun r hr => hr,
        fun hbg => by simp [hbg] at h2⟩
    · rw [if_neg h2]
      have hbgf : bgAt img c = false := by
        revert h2; cases bgAt img c <;> simp
      have hnb : nonbg img c := ⟨hcg, hbgf⟩
      obtain ⟨C, hC, hvis, hs0C, hMinX, hMaxX, hMinY, hMaxY, hCount⟩ :=
        fill_result img acc.1 c hinv.grid hinv.closed h1 hnb
      have hCgrid : C ⊆ gridF img := fun x hx => (hC.2.1 x hx).1
      have hgrid' : (detFill img acc.1 c).visited ⊆ gridF img := by
        rw [hvis]; exact Finset.union_subset hinv.grid hCgrid
      have hnonbg' : ∀ x ∈ (detFill img acc.1 c).visited, nonbg img x := by
        intro x hx
        rw [hvis] at hx
        rcases Finset.mem_union.mp hx with h | h
        · exact hinv.nonbgV x h
        · exact hC.2.1 x h
      have hclosed' : ∀ x ∈ (detFill img acc.1 c).visited, ∀ d,
          step img x d → d ∈ (detFill img acc.1 c).visited := by
        intro x hx d hs
        rw [hvis] at hx ⊢
        rcases Finset.mem_union.mp hx with h | h
        · exact Finset.mem_union_left _ (hinv.closed x h d hs)
        · exact Finset.mem_union_right _ (hC.2.2.2 x h d hs)
      by_cases h3 : 50 < (detFill img acc.1 c).count ∧
          5 < (detFill img acc.1 c).maxX - (detFill img acc.1 c).minX ∧
          5 < (detFill img acc.1 c).maxY - (detFill img acc.1 c).minY
      · rw [if_pos h3]
        have hpass : passCode C hC.1 := by
          obtain ⟨h3a, h3b, h3c⟩ := h3
          rw [hCount] at h3a
          rw [hMinX, hMaxX] at h3b
          rw [hMinY, hMaxY] at h3c
          exact ⟨h3a, h3b, h3c⟩
        have hrect : (⟨((detFill img acc.1 c).minX : ℤ),
            ((detFill img acc.1 c).maxX : ℤ), ((detFill img acc.1 c).minY : ℤ),
            ((detFill img acc.1 c).maxY : ℤ)⟩ : Rect) = componentRect C hC.1 := by
          rw [hMinX, hMaxX, hMinY, hMaxY]
          rfl
        refine ⟨?_, ?_, ?_, ?_⟩
        · refine
            { grid := hgrid'
              nonbgV := hnonbg'
              closed := hclosed'
              covered := ?_
              sound := ?_ }
          · intro x hx
            rw [hvis] at hx
            rcases Finset.mem_union.mp hx with h | h
            · obtain ⟨D, hD, hxD, hDsub, himp⟩ := hinv.covered x h
              refine ⟨D, hD, hxD, ?_, ?_⟩
              · rw [hvis]
                exact hDsub.trans Finset.subset_union_left
              · exact fun hp => List.mem_append_left _ (himp hp)
            · refine ⟨C, hC, h, ?_, ?_⟩
              · rw [hvis]
                exact Finset.subset_union_right
              · intro _
                exact List.mem_append_right _ (by rw [← hrect]; simp)
          · intro r hr
            rcases List.mem_append.mp hr with h | h
            · exact hinv.sound r h
            · rw [List.mem_singleton] at h
              exact ⟨C, hC, hpass, h.trans hrect⟩
        · rw [hvis]
          exact Finset.subset_union_left
        · exact fun r hr => List.mem_append_left _ hr
        · intro _
          rw [hvis]
          exact Finset.mem_union_right _ hs0C
      · rw [if_neg h3]
        have hfail : ¬ passCode C hC.1 := by
          intro hp
          obtain ⟨hpa, hpb, hpc⟩ := hp
          rw [← hCount] at hpa
          rw [← hMinX, ← hMaxX] at hpb
          rw [← hMinY, ← hMaxY] at hpc
          exact h3 ⟨hpa, hpb, hpc⟩
        refine ⟨?_, ?_, ?_, ?_⟩
        · refine
            { grid := hgrid'
              nonbgV := hnonbg'
              closed := hclosed'
              covered := ?_
              sound := hinv.sound }
          · intro x hx
            rw [hvis] at hx
            rcases Finset.mem_union.mp hx with h | h
            · obtain ⟨D, hD, hxD, hDsub, himp⟩ := hinv.covered x h
              refine ⟨D, hD, hxD, ?_, himp⟩
              rw [hvis]
              exact hDsub.trans Finset.subset_union_left
            · refine ⟨C, hC, h, ?_, fun hp => absurd hp hfail⟩
              rw [hvis]
              exact Finset.subset_union_right
        · rw [hvis]
          exact Finset.subset_union_left
        · exact fun r hr => hr
        · intro _
          rw [hvis]
          exact Finset.mem_union_right _ hs0C

theorem scan_fold (img : Img) : ∀ (cells : List Cell)
    (acc : Finset Cell × List Rect),
    ScanInv img acc → (∀ c ∈ cells, c ∈ gridF img) →
    ScanInv img (cells.foldl (scanCell img) acc) ∧
      (∀ r ∈ acc.2, r ∈ (cells.foldl (scanCell img) acc).2) ∧
      acc.1 ⊆ (cells.foldl (scanCell img) acc).1 ∧
      (∀ c ∈ cells, bgAt img c = false →
        c ∈ (cells.foldl (scanCell img) acc).1) := by
  intro cells
  induction cells with
  | nil =>
    intro acc hinv _
    exact ⟨hinv, fun r hr => hr, Finset.Subset.refl _, by simp⟩
  | cons c cs ih =>
    intro acc hinv hcg
    simp only [List.foldl_cons]
    obtain ⟨hinv1, hsub1, hr1, hc1⟩ :=
      scanCell_inv img acc c hinv (hcg c (List.mem_cons_self c cs))
    obtain ⟨hinv2, hr2, hsub2, hc2⟩ := ih (scanCell img acc c) hinv1
      (fun d hd => hcg d (List.mem_cons_of_mem c hd))
    refine ⟨hinv2, fun r hr => hr2 r (hr1 r hr), hsub1.trans hsub2, ?_⟩
    intro d hd hbg
    rcases List.mem_cons.mp hd with rfl | hd'
    · exact hsub2 (hc1 hbg)
    · exact hc2 d hd' hbg

theorem mem_rowMajor {img : Img} {c : Cell} :
    c ∈ rowMajor img ↔ c ∈ gridF img := by
  simp only [rowMajor, List.mem_flatMap, List.mem_map, List.mem_range, mem_gridF]
  constructor
  · rintro ⟨y, hy, x, hx, rfl⟩
    exact ⟨hx, hy⟩
  · intro ⟨h1, h2⟩
    exact ⟨c.2, h2, c.1, h1, rfl⟩

theorem scanInv_init (img : Img) : ScanInv img (∅, []) where
  grid := Finset.empty_subset _
  nonbgV := fun c hc => absurd hc (Finset.not_mem_empty c)
  closed := fun c hc => absurd hc (Finset.not_mem_empty c)
  covered := fun c hc => absurd hc (Finset.not_mem_empty c)
  sound := fun r hr => absurd hr (List.not_mem_nil r)

/-- Every rectangle the detector emits is the bounding box of a connected
component that passed the code's size thresholds. -/
theorem detect_sound (img : Img) :
    ∀ r ∈ detectComponents img, ∃ C, ∃ hC : IsComponent img C,
      passCode C hC.1 ∧ r = componentRect C hC.1 := by
  intro r hr
  unfold detectComponents at hr
  obtain ⟨hinv, _, _, _⟩ := scan_fold img (rowMajor img) (∅, [])
    (scanInv_init img) (fun c hc => mem_rowMajor.mp hc)
  exact hinv.sound r hr

/-- Every connected component that passes the code's size thresholds has
its bounding box emitted by the detector. -/
theorem detect_complete (img : Img) (C : Finset Cell)
    (hC : IsComponent img C) (hp : passCode C hC.1) :
    componentRect C hC.1 ∈ detectComponents img := by
  obtain ⟨c₀, hc₀⟩ := hC.1
  have hnb := hC.2.1 c₀ hc₀
  obtain ⟨hinv, _, _, hcells⟩ := scan_fold img (rowMajor img) (∅, [])
    (scanInv_init img) (fun c hc => mem_rowMajor.mp hc)
  have hc₀v := hcells c₀ (mem_rowMajor.mpr hnb.1) hnb.2
  obtain ⟨D, hD, hc₀D, _, himp⟩ := hinv.covered c₀ hc₀v
  have heq : C = D := comp_unique hC hD hc₀ hc₀D
  subst heq
  exact himp hp

theorem blackImg_bgAt (w h : ℕ) (c : Cell) : bgAt (blackImg w h) c = false := rfl

theorem blackImg_reach_row (w h : ℕ) (hh : 0 < h) :
    ∀ x, x < w → reach (blackImg w h) (0, 0) (x, 0) := by
  intro x
  induction x with
  | zero => intro _; exact Relation.ReflTransGen.refl
  | succ k ih =>
    intro hx
    have hk : k < w := Nat.lt_of_succ_lt hx
    refine (ih hk).tail ?_
    exact ⟨⟨mem_gridF.mpr ⟨hk, hh⟩, rfl⟩, ⟨mem_gridF.mpr ⟨hx, hh⟩, rfl⟩,
      Or.inl ⟨rfl, rfl⟩⟩

theorem blackImg_reach_col (w h : ℕ) (x : ℕ) (hx : x < w) :
    ∀ y, y < h → reach (blackImg w h) (x, 0) (x, y) := by
  intro y
  induction y with
  | zero => intro _; exact Relation.ReflTransGen.refl
  | succ k ih =>
    intro hy
    have hk : k < h := Nat.lt_of_succ_lt hy
    refine (ih hk).tail ?_
    exact ⟨⟨mem_gridF.mpr ⟨hx, hk⟩, rfl⟩, ⟨mem_gridF.mpr ⟨hx, hy⟩, rfl⟩,
      Or.inr (Or.inr (Or.inl ⟨rfl, rfl⟩))⟩

theorem blackImg_reach (w h : ℕ) {c : Cell}
    (hc : c ∈ gridF (blackImg w h)) : reach (blackImg w h) (0, 0) c := by
  obtain ⟨h1, h2⟩ := mem_gridF.mp hc
  simp only [blackImg] at h1 h2
  exact (blackImg_reach_row w h (by omega) c.1 h1).trans
    (blackImg_reach_col w h c.1 h1 c.2 h2)

/-- The whole grid of an all-black buffer is one connected component. -/
theorem blackImg_comp (w h : ℕ) (hw : 0 < w) (hh : 0 < h) :
    IsComponent (blackImg w h) (gridF (blackImg w h)) := by
  refine ⟨⟨(0, 0), mem_gridF.mpr ⟨hw, hh⟩⟩, fun c hc => ⟨hc, rfl⟩, ?_, ?_⟩
  · intro c hc d hd
    exact (reach_symm (blackImg_reach w h hc)).trans (blackImg_reach w h hd)
  · intro c _ d hs
    exact hs.2.1.1

theorem eNbrs_length_le (img : Img) (c : Cell) : (eNbrs img c).length ≤ 4 := by
  unfold eNbrs
  split_ifs <;> simp

theorem eNbrs_adjacent {img : Img} {c d : Cell} (h : d ∈ eNbrs img c) :
    adjacent c d := by
  simp only [eNbrs, List.mem_append] at h
  rcases h with ((h | h) | h) | h
  · by_cases hc : 0 < c.1
    · rw [if_pos hc] at h
      simp only [List.mem_singleton] at h
      subst h
      exact Or.inr (Or.inl ⟨by omega, rfl⟩)
    · rw [if_neg hc] at h; simp at h
  · by_cases hc : c.1 < img.width - 1
    · rw [if_pos hc] at h
      simp only [List.mem_singleton] at h
      subst h
      exact Or.inl ⟨rfl, rfl⟩
    · rw [if_neg hc] at h; simp at h
  · by_cases hc : 0 < c.2
    · rw [if_pos hc] at h
      simp only [List.mem_singleton] at h
      subst h
      exact Or.inr (Or.inr (Or.inr ⟨by omega, rfl⟩))
    · rw [if_neg hc] at h; simp at h
  · by_cases hc : c.2 < img.height - 1
    · rw [if_pos hc] at h
      simp only [List.mem_singleton] at h
      subst h
      exact Or.inr (Or.inr (Or.inl ⟨rfl, rfl⟩))
    · rw [if_neg hc] at h; simp at h

theorem adjacent_mem_eNbrs {img : Img} {c d : Cell} (hadj : adjacent c d)
    (hd : d ∈ gridF img) : d ∈ eNbrs img c := by
  obtain ⟨hd1, hd2⟩ := mem_gridF.mp hd
  simp only [eNbrs, List.mem_append]
  rcases hadj with ⟨h1, h2⟩ | ⟨h1, h2⟩ | ⟨h1, h2⟩ | ⟨h1, h2⟩
  · refine Or.inl (Or.inl (Or.inr ?_))
    rw [if_pos (by omega)]
    simp only [List.mem_singleton]
    exact Prod.ext_iff.mpr ⟨h1, h2⟩
  · refine Or.inl (Or.inl (Or.inl ?_))
    rw [if_pos (by omega)]
    simp only [List.mem_singleton]
    exact Prod.ext_iff.mpr ⟨by omega, h2⟩
  · refine Or.inr ?_
    rw [if_pos (by omega)]
    simp only [List.mem_singleton]
    exact Prod.ext_iff.mpr ⟨h2, h1⟩
  · refine Or.inl (Or.inr ?_)
    rw [if_pos (by omega)]
    simp only [List.mem_singleton]
    exact Prod.ext_iff.mpr ⟨h2, by omega⟩

theorem eNbrs_grid {img : Img} {c d : Cell} (hc : c ∈ gridF img)
    (h : d ∈ eNbrs img c) : d ∈ gridF img := by
  obtain ⟨h1, h2⟩ := mem_gridF.mp hc
  simp only [eNbrs, List.mem_append] at h
  rcases h with ((h | h) | h) | h
  · by_cases hg : 0 < c.1
    · rw [if_pos hg] at h
      simp only [List.mem_singleton] at h
      subst h
      exact mem_gridF.mpr ⟨by omega, h2⟩
    · rw [if_neg hg] at h; simp at h
  · by_cases hg : c.1 < img.width - 1
    · rw [if_pos hg] at h
      simp only [List.mem_singleton] at h
      subst h
      exact mem_gridF.mpr ⟨by omega, h2⟩
    · rw [if_neg hg] at h; simp at h
  · by_cases hg : 0 < c.2
    · rw [if_pos hg] at h
      simp only [List.mem_singleton] at h
      subst h
      exact mem_gridF.mpr ⟨h1, by omega⟩
    · rw [if_neg hg] at h; simp at h
  · by_cases hg : c.2 < img.height - 1
    · rw [if_pos hg] at h
      simp only [List.mem_singleton] at h
      subst h
      exact mem_gridF.mpr ⟨h1, by omega⟩
    · rw [if_neg hg] at h; simp at h

theorem extLoop_master (img : Img) :
    ∀ (fuel : ℕ) (M : Finset Cell) (stack : List Cell), EInv img M stack →
    extMeasure img M stack ≤ fuel →
    EInv img (extLoop img fuel M stack) [] ∧ M ⊆ extLoop img fuel M stack := by
  intro fuel
  induction fuel with
  | zero =>
    intro M stack hinv hm
    have hlen : stack = [] := List.length_eq_zero.mp
      (by unfold extMeasure at hm; omega)
    subst hlen
    exact ⟨hinv, Finset.Subset.refl M⟩
  | succ f ih =>
    intro M stack hinv hm
    match stack, hinv with
    | [], hinv => exact ⟨hinv, Finset.Subset.refl M⟩
    | c :: rest, hinv =>
      have hcg : c ∈ gridF img := hinv.sGrid c (List.mem_cons_self c rest)
      by_cases hg : c ∉ M ∧ bgAt img c = true
      · simp only [extLoop, if_pos hg]
        obtain ⟨hcM, hcbg⟩ := hg
        have hcreach : extReach img c := by
          rcases hinv.sSrc c (List.mem_cons_self c rest) with hb | ⟨m, hm2, hadj⟩
          · exact ⟨c, hcg, hb, hcbg, Relation.ReflTransGen.refl⟩
          · obtain ⟨b, hbg, hbb, hbbg, hpath⟩ := hinv.mReach m hm2
            exact ⟨b, hbg, hbb, hbbg, hpath.tail
              ⟨hinv.mGrid hm2, hcg, hinv.mBg m hm2, hcbg, hadj⟩⟩
        have hinv' : EInv img (insert c M) ((eNbrs img c).reverse ++ rest) := by
          refine
            { mGrid := Finset.insert_subset_iff.mpr ⟨hcg, hinv.mGrid⟩
              mBg := ?_
              mReach := ?_
              sGrid := ?_
              sSrc := ?_
              mClosed := ?_
              bCov := ?_ }
          · intro x hx
            rcases Finset.mem_insert.mp hx with rfl | hx'
            · exact hcbg
            · exact hinv.mBg x hx'
          · intro x hx
            rcases Finset.mem_insert.mp hx with rfl | hx'
            · exact hcreach
            · exact hinv.mReach x hx'
          · intro d hd
            rcases List.mem_append.mp hd with h | h
            · exact eNbrs_grid hcg (List.mem_reverse.mp h)
            · exact hinv.sGrid d (List.mem_cons_of_mem c h)
          · intro d hd
            rcases List.mem_append.mp hd with h | h
            · exact Or.inr ⟨c, Finset.mem_insert_self c M,
                eNbrs_adjacent (List.mem_reverse.mp h)⟩
            · rcases hinv.sSrc d (List.mem_cons_of_mem c h) with hb | ⟨m, hm2, hadj⟩
              · exact Or.inl hb
              · exact Or.inr ⟨m, Finset.mem_insert_of_mem hm2, hadj⟩
          · intro m hm2 d hadj hdg hdbg
            rcases Finset.mem_insert.mp hm2 with rfl | hm'
            · exact Or.inr (List.mem_append_left _
                (List.mem_reverse.mpr (adjacent_mem_eNbrs hadj hdg)))
            · rcases hinv.mClosed m hm' d hadj hdg hdbg with h | h
              · exact Or.inl (Finset.mem_insert_of_mem h)
              · rcases List.mem_cons.mp h with rfl | h'
                · exact Or.inl (Finset.mem_insert_self d M)
                · exact Or.inr (List.mem_append_right _ h')
          · intro b hbg hbb hbbg
            rcases hinv.bCov b hbg hbb hbbg with h | h
            · exact Or.inl (Finset.mem_insert_of_mem h)
            · rcases List.mem_cons.mp h with rfl | h'
              · exact Or.inl (Finset.mem_insert_self b M)
              · exact Or.inr (List.mem_append_right _ h')
        have hm' : extMeasure img (insert c M)
            ((eNbrs img c).reverse ++ rest) ≤ f := by
          have h1 : (insert c M).card = M.card + 1 :=
            Finset.card_insert_of_not_mem hcM
          have h2 : (insert c M).card ≤ (gridF img).card :=
            Finset.card_le_card (Finset.insert_subset_iff.mpr ⟨hcg, hinv.mGrid⟩)
          have h3 := eNbrs_length_le img c
          unfold extMeasure at hm ⊢
          rw [List.length_append, List.length_reverse]
          simp only [List.length_cons] at hm
          omega
        obtain ⟨ha, hb⟩ := ih _ _ hinv' hm'
        exact ⟨ha, (Finset.subset_insert c M).trans hb⟩
      · simp only [extLoop, if_neg hg]
        have hg' : c ∈ M ∨ bgAt img c = false := by
          by_cases h1 : c ∈ M
          · exact Or.inl h1
          · refine Or.inr ?_
            cases hb2 : bgAt img c
            · rfl
            · exact absurd ⟨h1, hb2⟩ hg
        have hinv' : EInv img M rest := by
          refine
            { mGrid := hinv.mGrid
              mBg := hinv.mBg
              mReach := hinv.mReach
              sGrid := fun d hd => hinv.sGrid d (List.mem_cons_of_mem c hd)
              sSrc := fun d hd => hinv.sSrc d (List.mem_cons_of_mem c hd)
              mClosed := ?_
              bCov := ?_ }
          · intro m hm2 d hadj hdg hdbg
            rcases hinv.mClosed m hm2 d hadj hdg hdbg with h | h
            · exact Or.inl h
            · rcases List.mem_cons.mp h with rfl | h'
              · rcases hg' with h2 | h2
                · exact Or.inl h2
                · rw [hdbg] at h2; cases h2
              · exact Or.inr h'
          · intro b hbg hbb hbbg
            rcases hinv.bCov b hbg hbb hbbg with h | h
            · exact Or.inl h
            · rcases List.mem_cons.mp h with rfl | h'
              · rcases hg' with h2 | h2
                · exact Or.inl h2
                · rw [hbbg] at h2; cases h2
              · exact Or.inr h'
        exact ih _ _ hinv'
          (by unfold extMeasure at hm ⊢
              simp only [List.length_cons] at hm
              omega)

theorem flatMap_pair_length (l : List ℕ) (f g : ℕ → Cell) :
    (l.flatMap fun x => [f x, g x]).length = 2 * l.length := by
  induction l with
  | nil => rfl
  | cons x xs ih =>
    simp only [List.flatMap_cons, List.length_append, ih, List.length_cons,
      List.length_nil, List.length_cons]
    omega

theorem seedList_length (img : Img) :
    (seedList img).length = 2 * img.width + 2 * (img.height - 1 - 1) := by
  unfold seedList
  rw [List.length_append, flatMap_pair_length, flatMap_pair_length,
    List.length_range, List.length_range']

theorem seedList_grid (img : Img) (hW : 0 < img.width)
    (hH : 0 < img.height) : ∀ c ∈ seedList img, c ∈ gridF img := by
  intro c hc
  simp only [seedList, List.mem_append, List.mem_flatMap, List.mem_range,
    List.mem_range'_1] at hc
  rcases hc with ⟨x, hx, hc⟩ | ⟨y, hy, hc⟩
  · simp only [List.mem_cons, List.mem_singleton, List.not_mem_nil,
      or_false] at hc
    rcases hc with rfl | rfl
    · exact mem_gridF.mpr ⟨hx, hH⟩
    · exact mem_gridF.mpr ⟨hx, by omega⟩
  · simp only [List.mem_cons, List.mem_singleton, List.not_mem_nil,
      or_false] at hc
    rcases hc with rfl | rfl
    · exact mem_gridF.mpr ⟨hW, by omega⟩
    · exact mem_gridF.mpr ⟨by omega, by omega⟩

theorem seedList_border (img : Img) : ∀ c ∈ seedList img, borderCell img c := by
  intro c hc
  simp only [seedList, List.mem_append, List.mem_flatMap, List.mem_range,
    List.mem_range'_1] at hc
  rcases hc with ⟨x, _, hc⟩ | ⟨y, _, hc⟩ <;>
    simp only [List.mem_cons, List.mem_singleton, List.not_mem_nil,
      or_false] at hc <;>
    rcases hc with rfl | rfl
  · exact Or.inr (Or.inr (Or.inl rfl))
  · exact Or.inr (Or.inr (Or.inr rfl))
  · exact Or.inl rfl
  · exact Or.inr (Or.inl rfl)

theorem border_mem_seedList (img : Img) {b : Cell} (hb : b ∈ gridF img)
    (hbb : borderCell img b) : b ∈ seedList img := by
  obtain ⟨h1, h2⟩ := mem_gridF.mp hb
  simp only [seedList, List.mem_append, List.mem_flatMap, List.mem_range,
    List.mem_range'_1]
  by_cases h0 : b.2 = 0
  · refine Or.inl ⟨b.1, h1, ?_⟩
    simp only [List.mem_cons, List.mem_singleton]
    exact Or.inl (Prod.ext_iff.mpr ⟨rfl, h0⟩)
  · by_cases hh1 : b.2 = img.height - 1
    · refine Or.inl ⟨b.1, h1, ?_⟩
      simp only [List.mem_cons, List.mem_singleton]
      exact Or.inr (Or.inl (Prod.ext_iff.mpr ⟨rfl, hh1⟩))
    · rcases hbb with h | h | h | h
      · refine Or.inr ⟨b.2, ⟨by omega, by omega⟩, ?_⟩
        simp only [List.mem_cons, List.mem_singleton]
        exact Or.inl (Prod.ext_iff.mpr ⟨h, rfl⟩)
      · refine Or.inr ⟨b.2, ⟨by omega, by omega⟩, ?_⟩
        simp only [List.mem_cons, List.mem_singleton]
        exact Or.inr (Or.inl (Prod.ext_iff.mpr ⟨h, rfl⟩))
      · exact absurd h h0
      · exact absurd h hh1

/-- The `isExterior` mask is exactly the set of exterior-reachable cells:
background-classified cells connected to a background border pixel through
a 4-connected background path. -/
theorem exteriorSet_spec (img : Img) (hW : 0 < img.width)
    (hH : 0 < img.height) (c : Cell) :
    c ∈ exteriorSet img ↔ extReach img c := by
  have hinv0 : EInv img ∅ (seedList img).reverse := by
    refine
      { mGrid := Finset.empty_subset _
        mBg := fun x hx => absurd hx (Finset.not_mem_empty x)
        mReach := fun x hx => absurd hx (Finset.not_mem_empty x)
        sGrid := fun d hd =>
          seedList_grid img hW hH d (List.mem_reverse.mp hd)
        sSrc := fun d hd =>
          Or.inl (seedList_border img d (List.mem_reverse.mp hd))
        mClosed := fun m hm => absurd hm (Finset.not_mem_empty m)
        bCov := fun b hbg hbb hbbg =>
          Or.inr (List.mem_reverse.mpr (border_mem_seedList img hbg hbb)) }
  have hm0 : extMeasure img ∅ (seedList img).reverse ≤
      5 * img.width * img.height + 2 * img.width + 2 * img.height := by
    unfold extMeasure
    rw [List.length_reverse, seedList_length]
    simp only [Finset.card_empty, Nat.sub_zero]
    rw [card_gridF]
    have : 5 * img.width * img.height = 5 * (img.width * img.height) := by ring
    omega
  obtain ⟨hinv', hsub'⟩ := extLoop_master img
    (5 * img.width * img.height + 2 * img.width + 2 * img.height)
    ∅ (seedList img).reverse hinv0 hm0
  constructor
  · intro hc
    exact hinv'.mReach c hc
  · rintro ⟨b, hbg, hbb, hbbg, hpath⟩
    have hbM : b ∈ exteriorSet img := by
      rcases hinv'.bCov b hbg hbb hbbg with h | h
      · exact h
      · exact absurd h (List.not_mem_nil b)
    clear hbb hbbg hbg
    induction hpath with
    | refl => exact hbM
    | tail _ h2 ih2 =>
      rcases hinv'.mClosed _ ih2 _ h2.2.2.2.2 h2.2.1 h2.2.2.2.1 with h | h
      · exact h
      · exact absurd h (List.not_mem_nil _)

/-- C1: for every rectangle list and every threshold τ, no two distinct
rectangles of the merger's output are within τ of each other in both axes
simultaneously: for every pair of distinct output rectangles, the X gap is
≥ τ or the Y gap is ≥ τ, the gaps being
`max(0, other.min - this.max, this.min - other.max)`. -/
theorem mergeRects_separation (rects : List Rect) (t : ℤ) :
    List.Pairwise (fun a b => t ≤ xDist a b ∨ t ≤ yDist a b)
      (mergeRects rects t) := by
  refine (mergeRects_pairwise rects t).imp ?_
  intro a b hab
  rcases lt_or_ge (xDist a b) t with h1 | h1
  · rcases lt_or_ge (yDist a b) t with h2 | h2
    · exact absurd ⟨h1, h2⟩ hab
    · exact Or.inr h2
  · exact Or.inl h1

/-- C6: the merger is idempotent; re-running it on its own output with the
same threshold returns the list unchanged. -/
theorem mergeRects_idempotent (rects : List Rect) (t : ℤ) :
    mergeRects (mergeRects rects t) t = mergeRects rects t :=
  mergeRects_of_pass_fix t _ (mergePass_mergeRects t rects)

/-- C5 counterexample: the rectangles `{0,0,0,0}` and `{2,2,2,2}` are
separated by exactly one empty pixel column (column 1) and one empty pixel
row (row 1), so `g = 1`; the threshold `τ = 2 > g`, yet the merger returns
them unmerged, refuting "τ > g merges" — the computed edge gaps are
`g + 1 = 2`, which is not `< τ`. -/
theorem merge_gap_counterexample :
    xDist ⟨0, 0, 0, 0⟩ ⟨2, 2, 2, 2⟩ = 1 + 1 ∧
    yDist ⟨0, 0, 0, 0⟩ ⟨2, 2, 2, 2⟩ = 1 + 1 ∧
    (2 : ℤ) > 1 ∧
    mergeRects [⟨0, 0, 0, 0⟩, ⟨2, 2, 2, 2⟩] 2 = [⟨0, 0, 0, 0⟩, ⟨2, 2, 2, 2⟩] := by
  refine ⟨by decide, by decide, by decide, by decide⟩

/-- C5 amended: for two rectangles separated by `g` empty pixel columns in
X and `g` empty pixel rows in Y — equivalently, whose computed axis gaps
are both `g + 1` — a threshold `τ > g + 1` merges them into the
componentwise union, and `τ ≤ g + 1` returns them as two separate
unchanged rectangles. -/
theorem merge_gap_amended (A B : Rect) (g t : ℤ)
    (hx : xDist A B = g + 1) (hy : yDist A B = g + 1) :
    (g + 1 < t → mergeRects [A, B] t = [unionRect A B]) ∧
    (t ≤ g + 1 → mergeRects [A, B] t = [A, B]) := by
  constructor
  · intro ht
    have hclose : mergeClose t A B := ⟨by omega, by omega⟩
    show mergeLoop t 2 [A, B] = _
    simp only [mergeLoop, mergePass, mergePassAux, absorb, if_pos hclose,
      List.length_cons, List.length_nil, List.length_singleton]
    norm_num
  · intro ht
    have hnc : ¬ mergeClose t A B := fun hc => absurd hc.1 (by omega)
    show mergeLoop t 2 [A, B] = _
    simp only [mergeLoop, mergePass, mergePassAux, absorb, if_neg hnc,
      List.length_cons, List.length_nil, List.length_singleton]
    norm_num

/-- C5 witness: two unit rectangles with one empty column and row between
them (`g = 1`, edge gaps 2): `τ = 3` merges them into the union,
`τ = 2` leaves them unchanged. -/
theorem merge_gap_witness :
    mergeRects [(⟨0, 0, 0, 0⟩ : Rect), ⟨2, 2, 2, 2⟩] 3 = [⟨0, 2, 0, 2⟩] ∧
    mergeRects [(⟨0, 0, 0, 0⟩ : Rect), ⟨2, 2, 2, 2⟩] 2 =
      [⟨0, 0, 0, 0⟩, ⟨2, 2, 2, 2⟩] := by
  have h1 := merge_gap_amended ⟨0, 0, 0, 0⟩ ⟨2, 2, 2, 2⟩ 1 3
    (by decide) (by decide)
  have h2 := merge_gap_amended ⟨0, 0, 0, 0⟩ ⟨2, 2, 2, 2⟩ 1 2
    (by decide) (by decide)
  exact ⟨(h1.1 (by decide)).trans (by decide), h2.2 (by decide)⟩

/-- C10: the merger terminates and loses nothing: a pass never lengthens
the list, a pass that changes anything strictly shrinks it, a pass that
changes nothing is the loop's fixed point (so `mergeRects` returns it
unchanged), and every input rectangle is contained in some rectangle of
the output. -/
theorem mergeRects_termination_containment (l : List Rect) (t : ℤ) :
    ((mergePass t l).length ≤ l.length) ∧
    (mergePass t l ≠ l → (mergePass t l).length < l.length) ∧
    (mergePass t l = l → mergeRects l t = l) ∧
    (∀ r ∈ l, ∃ s ∈ mergeRects l t, rectLE r s) :=
  ⟨mergePass_length_le t l, mergePass_ne_lt t l, mergeRects_of_pass_fix t l,
    mergeRects_mem l t⟩

/-- C10 witness: a singleton list is a fixed point and is returned
unchanged, and each input rectangle of a two-element list is contained in
some output rectangle. -/
theorem mergeRects_termination_witness :
    mergeRects [(⟨0, 0, 0, 0⟩ : Rect)] 5 = [⟨0, 0, 0, 0⟩] ∧
    ∃ s ∈ mergeRects [(⟨0, 0, 0, 0⟩ : Rect), ⟨1, 1, 1, 1⟩] 5,
      rectLE ⟨0, 0, 0, 0⟩ s := by
  constructor
  · exact (mergeRects_termination_containment [⟨0, 0, 0, 0⟩] 5).2.2.1 (by decide)
  · exact (mergeRects_termination_containment
      [⟨0, 0, 0, 0⟩, ⟨1, 1, 1, 1⟩] 5).2.2.2 ⟨0, 0, 0, 0⟩ (by decide)

/-- C8: every rectangle the detector emits satisfies `minX ≤ maxX` and
`minY ≤ maxY`, and the merger preserves this invariant. -/
theorem rect_invariant_preserved (img : Img) (l : List Rect) (t : ℤ) :
    (∀ r ∈ detectComponents img, validRect r) ∧
    ((∀ r ∈ l, validRect r) → ∀ r ∈ mergeRects l t, validRect r) := by
  constructor
  · intro r hr
    obtain ⟨C, hC, _, hrect⟩ := detect_sound img r hr
    subst hrect
    unfold validRect componentRect
    dsimp only
    constructor
    · exact_mod_cast Finset.min'_le _ _ (Finset.max'_mem _ _)
    · exact_mod_cast Finset.min'_le _ _ (Finset.max'_mem _ _)
  · exact fun hv => mergeRects_valid l t hv

/-- C8 witness: a valid singleton list keeps its validity through the
merger (and the all-background `whiteImg 1 1` has an empty detector
output, so its half holds trivially at that input too). -/
theorem rect_invariant_witness :
    ∀ r ∈ mergeRects [(⟨0, 3, 0, 3⟩ : Rect)] 15, validRect r :=
  (rect_invariant_preserved (whiteImg 1 1) [⟨0, 3, 0, 3⟩] 15).2 (by decide)

set_option maxRecDepth 4000000 in
/-- C2 counterexample: the all-black 6×9 buffer is a single connected
component of 54 pixels whose width (`maxX - minX + 1`) is 6 and whose
height is 9; the claim's thresholds (`count > 50`, width `> 5`, height
`> 5`) all pass, so the claim requires a rectangle to be emitted — yet the
detector emits nothing, because the code tests `maxX - minX > 5`
(i.e. width `> 6`), not width `> 5`. -/
theorem detector_width_counterexample :
    detectComponents (blackImg 6 9) = [] ∧
    IsComponent (blackImg 6 9) (gridF (blackImg 6 9)) ∧
    (gridF (blackImg 6 9)).card = 54 ∧
    compMaxX (gridF (blackImg 6 9)) ⟨(0, 0), by decide⟩ -
      compMinX (gridF (blackImg 6 9)) ⟨(0, 0), by decide⟩ + 1 = 6 ∧
    compMaxY (gridF (blackImg 6 9)) ⟨(0, 0), by decide⟩ -
      compMinY (gridF (blackImg 6 9)) ⟨(0, 0), by decide⟩ + 1 = 9 ∧
    (54 > 50 ∧ 6 > 5 ∧ 9 > 5) :=
  ⟨by decide, blackImg_comp 6 9 (by decide) (by decide), by decide,
    by decide, by decide, by decide⟩

/-- C2 amended: the detector emits a rectangle for a connected component
of non-background pixels if and only if the component's pixel count is
`> 50` **and** `maxX - minX > 5` **and** `maxY - minY > 5` (that is,
width and height of at least 7 pixels): every component passing these
thresholds has its bounding rectangle in the output, and every output
rectangle is the bounding rectangle of such a component. -/
theorem detector_emits_iff_thresholds (img : Img) :
    (∀ (C : Finset Cell) (hC : IsComponent img C),
      50 < C.card → 5 < compMaxX C hC.1 - compMinX C hC.1 →
      5 < compMaxY C hC.1 - compMinY C hC.1 →
      componentRect C hC.1 ∈ detectComponents img) ∧
    (∀ r ∈ detectComponents img, ∃ C, ∃ hC : IsComponent img C,
      (50 < C.card ∧ 5 < compMaxX C hC.1 - compMinX C hC.1 ∧
        5 < compMaxY C hC.1 - compMinY C hC.1) ∧
      r = componentRect C hC.1) :=
  ⟨fun C hC h1 h2 h3 => detect_complete img C hC ⟨h1, h2, h3⟩,
    detect_sound img⟩

set_option maxRecDepth 4000000 in
/-- C2 witness: the all-black 8×7 buffer is one 56-pixel component with
spans 7 and 6, passing the code's thresholds, and its bounding rectangle
`{0, 7, 0, 6}` is emitted. -/
theorem detector_emits_witness :
    (⟨0, 7, 0, 6⟩ : Rect) ∈ detectComponents (blackImg 8 7) := by
  have hC := blackImg_comp 8 7 (by decide) (by decide)
  have hb1 : 50 < (gridF (blackImg 8 7)).card := by decide
  have hb2 : 5 < compMaxX (gridF (blackImg 8 7)) ⟨(0, 0), by decide⟩ -
      compMinX (gridF (blackImg 8 7)) ⟨(0, 0), by decide⟩ := by decide
  have hb3 : 5 < compMaxY (gridF (blackImg 8 7)) ⟨(0, 0), by decide⟩ -
      compMinY (gridF (blackImg 8 7)) ⟨(0, 0), by decide⟩ := by decide
  have h := (detector_emits_iff_thresholds (blackImg 8 7)).1
    (gridF (blackImg 8 7)) hC hb1 hb2 hb3
  have h2 : componentRect (gridF (blackImg 8 7)) ⟨(0, 0), by decide⟩ ∈
      detectComponents (blackImg 8 7) := h
  have heq : componentRect (gridF (blackImg 8 7)) ⟨(0, 0), by decide⟩ =
      (⟨0, 7, 0, 6⟩ : Rect) := by decide
  rwa [heq] at h2

/-- C3: in the extractor's background removal on a cropped buffer, a
pixel is marked exterior exactly when it is background-classified and
reachable from a border pixel through a 4-connected path of
background-classified pixels; marked pixels keep their R, G, B values and
get alpha 0, and unmarked pixels are left entirely unchanged (so a
near-white region fully enclosed by artwork stays opaque). -/
theorem exterior_removal_spec (img : Img) (hW : 0 < img.width)
    (hH : 0 < img.height) (c : Cell) :
    (c ∈ exteriorSet img ↔ extReach img c) ∧
    (extReach img c → (removeExterior img).pix c.1 c.2 =
      ⟨(img.pix c.1 c.2).r, (img.pix c.1 c.2).g, (img.pix c.1 c.2).b, 0⟩) ∧
    (¬ extReach img c → (removeExterior img).pix c.1 c.2 = img.pix c.1 c.2) := by
  have hiff := exteriorSet_spec img hW hH c
  refine ⟨hiff, ?_, ?_⟩
  · intro hr
    have hmem : (c.1, c.2) ∈ exteriorSet img := hiff.mpr hr
    show (if (c.1, c.2) ∈ exteriorSet img then _ else _) = _
    rw [if_pos hmem]
  · intro hr
    have hmem : (c.1, c.2) ∉ exteriorSet img := fun hm => hr (hiff.mp hm)
    show (if (c.1, c.2) ∈ exteriorSet img then _ else _) = _
    rw [if_neg hmem]

/-- C3 witness: on the 5×5 ring buffer, the near-white border corner
`(0,0)` is exterior and its alpha is forced to zero with RGB kept, while
the enclosed near-white center `(2,2)` is not exterior and stays fully
opaque near-white. -/
theorem exterior_removal_witness :
    (removeExterior ring5).pix 0 0 = ⟨255, 255, 255, 0⟩ ∧
    (removeExterior ring5).pix 2 2 = ⟨255, 255, 255, 255⟩ := by
  have h1 := exterior_removal_spec ring5 (by decide) (by decide) (0, 0)
  have h2 := exterior_removal_spec ring5 (by decide) (by decide) (2, 2)
  constructor
  · have hreach : extReach ring5 (0, 0) :=
      ⟨(0, 0), by decide, Or.inl rfl, by decide, Relation.ReflTransGen.refl⟩
    exact (h1.2.1 hreach).trans (by decide)
  · have hnm : (2, 2) ∉ exteriorSet ring5 := by decide
    have hnr : ¬ extReach ring5 (2, 2) := fun hr => hnm (h2.1.mpr hr)
    exact (h2.2.2 hnr).trans (by decide)

/-- C4 counterexample: for the 20×20 source and the rectangle
`{minX 5, maxX 10, minY 5, maxY 10}` (at least 2 pixels inside every
side), the claim requires a crop width of `maxX - minX + 5 = 10`, but the
code computes `min(width - finalX, (maxX - minX) + 4) = 9`: the crop
spans columns 3 through 11, not 3 through 12. -/
theorem crop_padding_counterexample :
    cropX ⟨5, 10, 5, 10⟩ = 3 ∧
    cropW (whiteImg 20 20) ⟨5, 10, 5, 10⟩ = 9 ∧
    ¬ cropW (whiteImg 20 20) ⟨5, 10, 5, 10⟩ = 10 := by
  refine ⟨by decide, by decide, by decide⟩

/-- C4 amended: the crop region is the rectangle expanded by 2 pixels on
the left and top and by `(maxX - minX) + 4` in exclusive width (one pixel
less than symmetric 2-pixel padding on the right and bottom), clamped to
the source: when the rectangle lies at least 2 pixels inside the source on
every side, the crop starts at `(minX - 2, minY - 2)` and has width
`maxX - minX + 4` and height `maxY - minY + 4`, spanning columns
`minX - 2` through `maxX + 1` and rows `minY - 2` through `maxY + 1`. -/
theorem crop_padding_amended (source : Img) (rect : Rect)
    (h1 : 2 ≤ rect.minX) (h2 : 2 ≤ rect.minY)
    (h3 : rect.maxX + 3 ≤ (source.width : ℤ))
    (h4 : rect.maxY + 3 ≤ (source.height : ℤ))
    (_h5 : rect.minX ≤ rect.maxX) (_h6 : rect.minY ≤ rect.maxY) :
    cropX rect = rect.minX - 2 ∧ cropY rect = rect.minY - 2 ∧
    cropW source rect = rect.maxX - rect.minX + 4 ∧
    cropH source rect = rect.maxY - rect.minY + 4 := by
  have hx : cropX rect = rect.minX - 2 := max_eq_right (by omega)
  have hy : cropY rect = rect.minY - 2 := max_eq_right (by omega)
  refine ⟨hx, hy, ?_, ?_⟩
  · unfold cropW
    rw [hx]
    exact min_eq_right (by omega)
  · unfold cropH
    rw [hy]
    exact min_eq_right (by omega)

/-- C4 witness: the amended geometry at the 20×20 source and the
rectangle `{5, 10, 5, 10}`. -/
theorem crop_padding_witness :
    cropX ⟨5, 10, 5, 10⟩ = 3 ∧ cropY ⟨5, 10, 5, 10⟩ = 3 ∧
    cropW (whiteImg 20 20) ⟨5, 10, 5, 10⟩ = 9 ∧
    cropH (whiteImg 20 20) ⟨5, 10, 5, 10⟩ = 9 := by
  have h := crop_padding_amended (whiteImg 20 20) ⟨5, 10, 5, 10⟩
    (by decide) (by decide) (by decide) (by decide) (by decide) (by decide)
  exact ⟨h.1.trans (by decide), h.2.1.trans (by decide),
    h.2.2.1.trans (by decide), h.2.2.2.trans (by decide)⟩

/-- C7: with every drawing-surface acquisition succeeding, the extractor
returns no result exactly when the computed crop has non-positive width or
height, and a sticker result in every other case; the degenerate case is a
plain `none` return, not an error. -/
theorem extract_none_iff_degenerate (source : Img) (rect : Rect)
    (name : String) :
    extractStickerFromRect source rect ⟨true, true, true⟩ name = none ↔
    cropW source rect ≤ 0 ∨ cropH source rect ≤ 0 := by
  unfold extractStickerFromRect
  by_cases h : cropW source rect ≤ 0 ∨ cropH source rect ≤ 0
  · simp only [if_pos h]
    exact ⟨fun _ => h, fun _ => trivial⟩
  · simp only [if_neg h]
    constructor
    · intro hcontra
      simp at hcontra
    · intro hcontra
      exact absurd hcontra h

/-- C9: the naming call never raises: it is a total function into strings,
and on every failure mode — missing credential, thrown model call, empty
or missing response text, JSON parse failure, or a parsed object without
a usable `filename` — it returns the fixed default `"sticker"`; any other
outcome returns the parsed non-empty filename. -/
theorem generateStickerName_total_fallback (hasKey : Bool)
    (call : ModelResponse) (parse : String → Option (Option String)) :
    (hasKey = false → generateStickerName hasKey call parse = "sticker") ∧
    (call = ModelResponse.failure →
      generateStickerName hasKey call parse = "sticker") ∧
    (call = ModelResponse.success none →
      generateStickerName hasKey call parse = "sticker") ∧
    (∀ t, call = ModelResponse.success (some t) → parse t = none →
      generateStickerName hasKey call parse = "sticker") ∧
    (∀ t, call = ModelResponse.success (some t) → parse t = some none →
      generateStickerName hasKey call parse = "sticker") ∧
    (generateStickerName hasKey call parse = "sticker" ∨
      ∃ t s, call = ModelResponse.success (some t) ∧ parse t = some (some s) ∧
        s ≠ "" ∧ generateStickerName hasKey call parse = s) := by
  refine ⟨?_, ?_, ?_, ?_, ?_, ?_⟩
  · intro h
    subst h
    rfl
  · intro h
    subst h
    cases hasKey <;> rfl
  · intro h
    subst h
    cases hasKey <;> rfl
  · intro t h hp
    subst h
    cases hasKey with
    | false => rfl
    | true =>
      by_cases ht : t = ""
      · simp [generateStickerName, ht]
      · simp [generateStickerName, ht, hp]
  · intro t h hp
    subst h
    cases hasKey with
    | false => rfl
    | true =>
      by_cases ht : t = ""
      · simp [generateStickerName, ht]
      · simp [generateStickerName, ht, hp]
  · cases hasKey with
    | false => exact Or.inl rfl
    | true =>
      cases call with
      | failure => exact Or.inl rfl
      | success o =>
        cases o with
        | none => exact Or.inl rfl
        | some t =>
          by_cases ht : t = ""
          · exact Or.inl (by simp [generateStickerName, ht])
          · cases hp : parse t with
            | none => exact Or.inl (by simp [generateStickerName, ht, hp])
            | some o2 =>
              cases o2 with
              | none => exact Or.inl (by simp [generateStickerName, ht, hp])
              | some str =>
                by_cases hs : str = ""
                · exact Or.inl (by simp [generateStickerName, ht, hp, hs])
                · exact Or.inr ⟨t, str, rfl, hp, hs,
                    by simp [generateStickerName, ht, hp, hs]⟩

/-- C9 witness: a missing credential and a thrown model call both yield
the fixed default `"sticker"`. -/
theorem generateStickerName_witness :
    generateStickerName false (ModelResponse.success (some "x"))
      (fun _ => some (some "cat")) = "sticker" ∧
    generateStickerName true ModelResponse.failure (fun _ => none) =
      "sticker" :=
  ⟨(generateStickerName_total_fallback false
      (ModelResponse.success (some "x")) (fun _ => some (some "cat"))).1 rfl,
    (generateStickerName_total_fallback true ModelResponse.failure
      (fun _ => none)).2.1 rfl⟩

end EmojiCut
